import Mathlib

/-!
Verification of the docvector ingestion-and-retrieval pipeline.

Shallow embedding of the Python source:
* strings are `List Char`, with Python's `str.strip`, `str.rfind`,
  `str.split`, `re.findall` and substring operations modelled explicitly;
* machine floats (scores, weights) are modelled as exact rationals `ℚ`;
* while-loops become fuel-based structural recursion, the fuel being an
  upper bound on the number of iterations established by the loop's own
  progress argument (each iteration advances by at least one character),
  so that the definitions evaluate by kernel reduction.
-/

namespace DocVector

/-! ### Python string primitives -/

/-- Python `str.strip` whitespace set (the characters stripped by default). -/
def pyIsSpace (c : Char) : Bool :=
  c = ' ' || c = '\t' || c = '\n' || c = '\r' || c = '\x0b' || c = '\x0c'

/-- Python slice `text[a:b]` on a character list. -/
def pySlice (l : List Char) (a b : Nat) : List Char :=
  (l.drop a).take (b - a)

/-- Python `str.strip()`: remove leading and trailing whitespace. -/
def pyStrip (l : List Char) : List Char :=
  ((l.dropWhile pyIsSpace).reverse.dropWhile pyIsSpace).reverse

/-- Does `sep` occur in `text` starting at position `i`? -/
def matchesAt (text sep : List Char) (i : Nat) : Bool :=
  pySlice text i (i + sep.length) == sep

/-- Python `str.rfind(sep, a, b)`: the greatest position `i` with
`a ≤ i`, `i + sep.length ≤ b` and an occurrence of `sep` at `i`;
`none` when there is no occurrence (Python returns `-1`). -/
def pyRfind (text sep : List Char) (a b : Nat) : Option Nat :=
  ((List.range' a (b + 1 - sep.length - a)).filter (matchesAt text sep)).getLast?

/-- Python `str.lower` (modelled character-wise). -/
def pyLower (l : List Char) : List Char :=
  l.map Char.toLower

/-- Maximal runs of characters satisfying `p` (fuel-based; the fuel is an
upper bound on the input length). With `p = isWordChar` this is
`re.findall(r&apos;\w+&apos;, ·)`-like word extraction; with `p = not whitespace`
it is Python `str.split()`. -/
def runsBy (p : Char → Bool) : Nat → List Char → List (List Char)
  | 0, _ => []
  | _, [] => []
  | fuel + 1, c :: cs =>
    if p c then
      ((c :: cs).takeWhile p) :: runsBy p fuel ((c :: cs).dropWhile p)
    else
      runsBy p fuel cs

/-- Python `str.split()` (split on whitespace runs, dropping empties). -/
def pySplit (l : List Char) : List (List Char) :=
  runsBy (fun c => !pyIsSpace c) l.length l

/-- A `\w` word character as used by `re.findall(r&apos;\w+&apos;, ...)`
(ASCII letters, digits and underscore in the texts considered here). -/
def isWordChar (c : Char) : Bool :=
  c.isAlphanum || c = '_'

/-- Word extraction `re.findall(r&apos;\w+&apos;, text)`. -/
def pyFindWords (l : List Char) : List (List Char) :=
  runsBy isWordChar l.length l

/-- Python substring test `sub in text`: `sub` occurs contiguously in
`text` (always true for the empty `sub`). -/
def pyIsSubstring (sub text : List Char) : Bool :=
  (List.range (text.length + 1)).any (fun i => sub.isPrefixOf (text.drop i))

/-- Auxiliary for `pyCount`: counts non-overlapping occurrences of the
nonempty pattern `s :: rest` left to right (fuel ≥ text length). -/
def pyCountAux (s : Char) (rest : List Char) : Nat → List Char → Nat
  | 0, _ => 0
  | _, [] => 0
  | fuel + 1, c :: cs =>
    if (s :: rest).isPrefixOf (c :: cs) then
      1 + pyCountAux s rest fuel ((c :: cs).drop (s :: rest).length)
    else
      pyCountAux s rest fuel cs

/-- Python `str.count(sub)`: non-overlapping occurrences scanned left to
right; for the empty pattern Python returns `len(text) + 1`. -/
def pyCount (text sub : List Char) : Nat :=
  match sub with
  | [] => text.length + 1
  | s :: rest => pyCountAux s rest text.length text

/-! ### Fixed-size chunker (`processing/chunkers/fixed_size.py`) -/

/-- A text chunk as produced by the chunkers (`TextChunk` in
`chunkers/base.py`; the opaque metadata dict is not modelled). -/
structure TextChunk where
  content : List Char
  index : Nat
  start_char : Nat
  end_char : Nat
deriving Repr, DecidableEq

/-- End position of the chunk starting at `start`: `min(start + size, len)`,
adjusted back to just after the last separator occurrence in the window
when that occurrence lies beyond `start + size // 2` and this is not the
final chunk (lines 67–77 of `fixed_size.py`). -/
def chunkEnd (text sep : List Char) (chunkSize start : Nat) : Nat :=
  if min (start + chunkSize) text.length < text.length then
    match pyRfind text sep start (min (start + chunkSize) text.length) with
    | some p =>
      if start + chunkSize / 2 < p then p + sep.length
      else min (start + chunkSize) text.length
    | none => min (start + chunkSize) text.length
  else min (start + chunkSize) text.length

/-- Next window start: `end - overlap`, forced to advance by at least one
character (lines 98–103 of `fixed_size.py`). -/
def nextStart (chunkOverlap start e : Nat) : Nat :=
  if e - chunkOverlap ≤ start then start + 1 else e - chunkOverlap

/-- The `while start < text_len` loop of `FixedSizeChunker._chunk_sync`,
fuel-based (each iteration advances `start` by at least one, so
`text.length` fuel suffices from `start = 0`). A chunk is appended when the
stripped window is nonempty; the loop breaks when the window reaches the
end of the text, and otherwise restarts at `nextStart`. -/
def chunkSyncAux (text sep : List Char) (chunkSize chunkOverlap : Nat) :
    Nat → Nat → Nat → List TextChunk
  | 0, _, _ => []
  | fuel + 1, start, index =>
    if start < text.length then
      if text.length ≤ chunkEnd text sep chunkSize start then
        if pyStrip (pySlice text start (chunkEnd text sep chunkSize start)) = [] then []
        else [⟨pyStrip (pySlice text start (chunkEnd text sep chunkSize start)),
              index, start, chunkEnd text sep chunkSize start⟩]
      else
        if pyStrip (pySlice text start (chunkEnd text sep chunkSize start)) = [] then
          chunkSyncAux text sep chunkSize chunkOverlap fuel
            (nextStart chunkOverlap start (chunkEnd text sep chunkSize start)) index
        else
          ⟨pyStrip (pySlice text start (chunkEnd text sep chunkSize start)),
           index, start, chunkEnd text sep chunkSize start⟩ ::
          chunkSyncAux text sep chunkSize chunkOverlap fuel
            (nextStart chunkOverlap start (chunkEnd text sep chunkSize start)) (index + 1)
    else []

/-- `FixedSizeChunker._chunk_sync` (also the body of `chunk`, which returns
`[]` for empty text — as does the loop). -/
def fixedSizeChunkSync (text sep : List Char) (chunkSize chunkOverlap : Nat) :
    List TextChunk :=
  chunkSyncAux text sep chunkSize chunkOverlap text.length 0 0

/-! ### Chunker lemmas -/

lemma pyRfind_bounds {text sep : List Char} {a b p : Nat}
    (h : pyRfind text sep a b = some p) : a ≤ p ∧ p + sep.length ≤ b := by
  unfold pyRfind at h
  have hp : p ∈ (List.range' a (b + 1 - sep.length - a)).filter (matchesAt text sep) :=
    List.mem_of_mem_getLast? (by simp [h])
  have hr := List.mem_range'_1.mp (List.mem_of_mem_filter hp)
  omega

lemma chunkEnd_le_length (text sep : List Char) (S start : Nat) :
    chunkEnd text sep S start ≤ text.length := by
  unfold chunkEnd
  split
  · split
    · split
      · next h _ _ =>
        have := pyRfind_bounds (by assumption)
        omega
      · omega
    · omega
  · omega

lemma chunkEnd_le_window (text sep : List Char) (S start : Nat) :
    chunkEnd text sep S start ≤ start + S := by
  unfold chunkEnd
  split
  · split
    · split
      · next h _ _ =>
        have := pyRfind_bounds (by assumption)
        omega
      · omega
    · omega
  · omega

lemma lt_chunkEnd (text sep : List Char) {S start : Nat} (hS : 1 ≤ S)
    (hstart : start < text.length) : start < chunkEnd text sep S start := by
  unfold chunkEnd
  split
  · split
    · split
      · omega
      · omega
    · omega
  · omega

lemma lt_nextStart (chunkOverlap start e : Nat) :
    start < nextStart chunkOverlap start e := by
  unfold nextStart
  split <;> omega

lemma nextStart_le_end (chunkOverlap start e : Nat) (h : start < e) :
    nextStart chunkOverlap start e ≤ e := by
  unfold nextStart
  split <;> omega

lemma chunkEnd_le_nextStart_add (chunkOverlap start e : Nat) :
    e ≤ nextStart chunkOverlap start e + chunkOverlap := by
  unfold nextStart
  split <;> omega

lemma pyStrip_length_le (l : List Char) : (pyStrip l).length ≤ l.length := by
  unfold pyStrip
  calc ((l.dropWhile pyIsSpace).reverse.dropWhile pyIsSpace).reverse.length
      = ((l.dropWhile pyIsSpace).reverse.dropWhile pyIsSpace).length := by
        rw [List.length_reverse]
    _ ≤ (l.dropWhile pyIsSpace).reverse.length :=
        (List.dropWhile_sublist _).length_le
    _ = (l.dropWhile pyIsSpace).length := by rw [List.length_reverse]
    _ ≤ l.length := (List.dropWhile_sublist _).length_le

lemma pySlice_length_le (l : List Char) (a b : Nat) :
    (pySlice l a b).length ≤ b - a := by
  unfold pySlice
  simp [List.length_take]

lemma pyStrip_eq_nil_iff (l : List Char) :
    pyStrip l = [] ↔ ∀ c ∈ l, pyIsSpace c = true := by
  unfold pyStrip
  rw [List.reverse_eq_nil_iff, List.dropWhile_eq_nil_iff]
  constructor
  · intro h c hc
    rw [← List.takeWhile_append_dropWhile pyIsSpace l, List.mem_append] at hc
    rcases hc with hc | hc
    · exact List.mem_takeWhile_imp hc
    · exact h c (List.mem_reverse.mpr hc)
  · intro h c hc
    exact h c (List.dropWhile_sublist pyIsSpace |>.subset (List.mem_reverse.mp hc))

lemma getD_mem_pySlice (l : List Char) (a b j : Nat) (h1 : a ≤ j) (h2 : j < b)
    (h3 : j < l.length) : l.getD j ' ' ∈ pySlice l a b := by
  unfold pySlice
  have hlen : j - a < ((l.drop a).take (b - a)).length := by
    simp [List.length_take, List.length_drop]
    omega
  have hd : j - a < (l.drop a).length := by
    rw [List.length_drop]; omega
  have heq : ((l.drop a).take (b - a)).get ⟨j - a, hlen⟩ = l.getD j ' ' := by
    rw [List.get_eq_getElem, List.getElem_take, List.getElem_drop,
      List.getD_eq_getElem _ _ h3]
    simp only [Nat.add_sub_cancel' h1]
  rw [← heq]
  exact List.get_mem _ _ hlen

lemma mem_chunkSyncAux {text sep : List Char} {S O : Nat} :
    ∀ {fuel start index ch}, ch ∈ chunkSyncAux text sep S O fuel start index →
      start ≤ ch.start_char ∧ ch.start_char < text.length ∧
      ch.end_char = chunkEnd text sep S ch.start_char ∧
      ch.content = pyStrip (pySlice text ch.start_char ch.end_char) := by
  intro fuel
  induction fuel with
  | zero => intro start index ch h; simp [chunkSyncAux] at h
  | succ n ih =>
    intro start index ch h
    rw [chunkSyncAux] at h
    split at h
    · next hstart =>
      split at h
      · split at h
        · simp at h
        · rw [List.mem_singleton] at h
          subst h
          exact ⟨le_refl _, hstart, rfl, rfl⟩
      · split at h
        · have := ih h
          have hlt := lt_nextStart O start (chunkEnd text sep S start)
          exact ⟨by omega, this.2⟩
        · rcases List.mem_cons.mp h with h | h
          · subst h
            exact ⟨le_refl _, hstart, rfl, rfl⟩
          · have := ih h
            have hlt := lt_nextStart O start (chunkEnd text sep S start)
            exact ⟨by omega, this.2⟩
    · simp at h

lemma chain_chunkSyncAux {text sep : List Char} {S O : Nat} :
    ∀ {fuel start index},
      List.Chain' (fun a b : TextChunk => a.end_char ≤ b.start_char + O)
        (chunkSyncAux text sep S O fuel start index) := by
  intro fuel
  induction fuel with
  | zero => intro start index; simp [chunkSyncAux]
  | succ n ih =>
    intro start index
    rw [chunkSyncAux]
    split
    · split
      · split
        · simp
        · simp
      · split
        · exact ih
        · rw [List.chain'_cons']
          refine ⟨?_, ih⟩
          intro y hy
          have hmem := mem_chunkSyncAux (List.mem_of_mem_head? hy)
          have h1 := chunkEnd_le_nextStart_add O start (chunkEnd text sep S start)
          dsimp only
          omega
    · simp

lemma cover_chunkSyncAux {text sep : List Char} {S O : Nat} (hS : 1 ≤ S) :
    ∀ {fuel start index} (j : Nat), text.length ≤ start + fuel → start ≤ j →
      j < text.length → pyIsSpace (text.getD j ' ') = false →
      ∃ ch ∈ chunkSyncAux text sep S O fuel start index,
        ch.start_char ≤ j ∧ j < ch.end_char := by
  intro fuel
  induction fuel with
  | zero => intro start index j hfuel hsj hj _; omega
  | succ n ih =>
    intro start index j hfuel hsj hj hws
    have hstart : start < text.length := by omega
    have he1 : start < chunkEnd text sep S start := lt_chunkEnd text sep hS hstart
    have he2 : chunkEnd text sep S start ≤ text.length := chunkEnd_le_length text sep S start
    rw [chunkSyncAux]
    rw [if_pos hstart]
    by_cases hje : j < chunkEnd text sep S start
    · have hcne : pyStrip (pySlice text start (chunkEnd text sep S start)) ≠ [] := by
        intro hnil
        have hall := (pyStrip_eq_nil_iff _).mp hnil
        have hmem : text.getD j ' ' ∈ pySlice text start (chunkEnd text sep S start) :=
          getD_mem_pySlice text start (chunkEnd text sep S start) j hsj hje hj
        rw [hall _ hmem] at hws
        exact Bool.true_eq_false.mp hws
      by_cases hec : text.length ≤ chunkEnd text sep S start
      · rw [if_pos hec, if_neg hcne]
        exact ⟨_, List.mem_singleton_self _, hsj, hje⟩
      · rw [if_neg hec, if_neg hcne]
        exact ⟨_, List.mem_cons_self _ _, hsj, hje⟩
    · push_neg at hje
      have hend : ¬ text.length ≤ chunkEnd text sep S start := by omega
      rw [if_neg hend]
      have hns1 : nextStart O start (chunkEnd text sep S start) ≤ j :=
        le_trans (nextStart_le_end O start _ he1) hje
      have hns2 : text.length ≤ nextStart O start (chunkEnd text sep S start) + n := by
        have := lt_nextStart O start (chunkEnd text sep S start)
        omega
      split
      · exact ih j hns2 hns1 hj hws
      · obtain ⟨ch, hch, hcov⟩ :=
          @ih (nextStart O start (chunkEnd text sep S start)) (index + 1) j
            hns2 hns1 hj hws
        exact ⟨ch, List.mem_cons_of_mem _ hch, hcov⟩

/-- Effective value of an optional constructor argument under Python's
`x or default` (both `None` and `0` are falsy and select the default). -/
def pyOrDefault (x : Option Int) (d : Int) : Int :=
  match x with
  | none => d
  | some n => if n = 0 then d else n

/-- A successfully constructed `FixedSizeChunker`. -/
structure FixedSizeChunker where
  chunk_size : Int
  chunk_overlap : Int
  separator : List Char
deriving Repr, DecidableEq

/-- `FixedSizeChunker.__init__`: resolve defaults with `or`, then raise
`ValueError` when `chunk_overlap >= chunk_size` (lines 29–34 of
`fixed_size.py`). -/
def mkFixedSizeChunker (chunkSize chunkOverlap : Option Int)
    (defaultSize defaultOverlap : Int) (sep : List Char) :
    Except String FixedSizeChunker :=
  if pyOrDefault chunkSize defaultSize ≤ pyOrDefault chunkOverlap defaultOverlap then
    Except.error "chunk_overlap must be less than chunk_size"
  else
    Except.ok ⟨pyOrDefault chunkSize defaultSize, pyOrDefault chunkOverlap defaultOverlap, sep⟩

/-- Number of leading whitespace characters of a text. -/
def leadingWsCount (l : List Char) : Nat :=
  (l.takeWhile pyIsSpace).length

/-- Number of trailing whitespace characters of a text. -/
def trailingWsCount (l : List Char) : Nat :=
  (l.reverse.takeWhile pyIsSpace).length

/-! ### Claim C3 -/

set_option maxRecDepth 10000 in
/-- C3 (counterexample): on 200 copies of 'A' with `chunk_size=50`,
`chunk_overlap=10`, the claim "every chunk's content has length 50" is
false: the window starts advance by 40 (= 50 − 10), so the fifth window is
`[160, 200)` and its content has length 40, not 50. -/
theorem c3_fixedSize200A_counterexample :
    ¬ (∀ ch ∈ fixedSizeChunkSync (List.replicate 200 'A') ['\n'] 50 10,
        ch.content.length = 50) := by
  decide

set_option maxRecDepth 10000 in
/-- C3 (amended): on 200 copies of 'A' with `chunk_size=50`,
`chunk_overlap=10`, the fixed-size chunker emits exactly 5 chunks with
indices 0..4, content lengths 50, 50, 50, 50 and 40, spans
`[0,50), [40,90), [80,130), [120,170), [160,200)`, and every consecutive
pair satisfies `end_char = next.start_char + 10`. -/
theorem c3_fixedSize200A_amended :
    (fixedSizeChunkSync (List.replicate 200 'A') ['\n'] 50 10).map
        (fun c => c.index) = [0, 1, 2, 3, 4] ∧
    (fixedSizeChunkSync (List.replicate 200 'A') ['\n'] 50 10).map
        (fun c => c.content.length) = [50, 50, 50, 50, 40] ∧
    (fixedSizeChunkSync (List.replicate 200 'A') ['\n'] 50 10).map
        (fun c => (c.start_char, c.end_char)) =
      [(0, 50), (40, 90), (80, 130), (120, 170), (160, 200)] ∧
    (∀ i, i < 4 →
      ((fixedSizeChunkSync (List.replicate 200 'A') ['\n'] 50 10).getD i
          ⟨[], 0, 0, 0⟩).end_char =
      ((fixedSizeChunkSync (List.replicate 200 'A') ['\n'] 50 10).getD (i + 1)
          ⟨[], 0, 0, 0⟩).start_char + 10) := by
  decide

/-! ### Claim C4 -/

/-- C4 (counterexample): the coverage part of the claim fails. On the
input `"AB       CD"` (7 interior spaces) with `chunk_size=5`,
`chunk_overlap=1`, the window `[4, 9)` strips to the empty string and is
skipped, so positions 5–7 — interior whitespace, not leading or trailing —
are covered by no emitted chunk span. Position 5 witnesses the failure. -/
theorem c4_fixedSize_invariants_counterexample :
    ¬ ((∀ ch ∈ fixedSizeChunkSync ("AB       CD".toList) ['\n'] 5 1,
          ch.content.length ≤ 5) ∧
       List.Chain' (fun a b =>
           min a.end_char b.end_char - max a.start_char b.start_char ≤ 1)
         (fixedSizeChunkSync ("AB       CD".toList) ['\n'] 5 1) ∧
       (∀ j, j < ("AB       CD".toList).length - trailingWsCount ("AB       CD".toList) →
         leadingWsCount ("AB       CD".toList) ≤ j →
         ∃ ch ∈ fixedSizeChunkSync ("AB       CD".toList) ['\n'] 5 1,
           ch.start_char ≤ j ∧ j < ch.end_char) ∧
       (∀ start e, start < nextStart 1 start e)) := by
  intro h
  have h5 := h.2.2.1 5 (by decide) (by decide)
  exact absurd h5 (by decide)

/-- C4 (amended): for every text, separator and configuration with
`chunk_overlap < chunk_size`: every emitted chunk's content has length at
most `chunk_size`; the character spans of consecutive chunks intersect in
at most `chunk_overlap` positions; every non-whitespace character position
of the input is covered by some emitted chunk's span (interior runs of
whitespace longer than a window may be skipped, so whitespace-only spans —
not only leading/trailing ones — can be uncovered); and the window start
strictly advances each iteration, so chunking terminates. -/
theorem c4_fixedSize_invariants (text sep : List Char) (S O : Nat) (hO : O < S) :
    (∀ ch ∈ fixedSizeChunkSync text sep S O, ch.content.length ≤ S) ∧
    List.Chain' (fun a b =>
        min a.end_char b.end_char - max a.start_char b.start_char ≤ O)
      (fixedSizeChunkSync text sep S O) ∧
    (∀ j, j < text.length → pyIsSpace (text.getD j ' ') = false →
      ∃ ch ∈ fixedSizeChunkSync text sep S O,
        ch.start_char ≤ j ∧ j < ch.end_char) ∧
    (∀ start e, start < nextStart O start e) := by
  have hS : 1 ≤ S := by omega
  unfold fixedSizeChunkSync
  refine ⟨?_, ?_, ?_, fun start e => lt_nextStart O start e⟩
  · intro ch hch
    obtain ⟨_, _, hend, hcontent⟩ := mem_chunkSyncAux hch
    have h1 := pyStrip_length_le (pySlice text ch.start_char ch.end_char)
    have h2 := pySlice_length_le text ch.start_char ch.end_char
    have h3 := chunkEnd_le_window text sep S ch.start_char
    rw [hcontent]
    omega
  · exact chain_chunkSyncAux.imp (fun h => by omega)
  · intro j hj hws
    exact cover_chunkSyncAux hS j (by omega) (Nat.zero_le j) hj hws

set_option maxRecDepth 10000 in
/-- C4 witness: the amended invariants instantiated on 200 copies of 'A'
with `chunk_size=50`, `chunk_overlap=10`: position 100 (a non-whitespace
character) is covered by some emitted chunk's span. -/
theorem c4_fixedSize_invariants_witness :
    ∃ ch ∈ fixedSizeChunkSync (List.replicate 200 'A') ['\n'] 50 10,
      ch.start_char ≤ 100 ∧ 100 < ch.end_char :=
  (c4_fixedSize_invariants (List.replicate 200 'A') ['\n'] 50 10
    (by decide)).2.2.1 100 (by decide) (by decide)

/-! ### Claim C10 -/

/-- C10: `FixedSizeChunker.__init__` fails with `ValueError` exactly when
the effective overlap (after Python `or`-defaulting of the optional
arguments) is at least the effective chunk size; consequently every
successfully constructed chunker has `chunk_overlap < chunk_size`. -/
theorem c10_fixedSizeChunker_init_validation (chunkSize chunkOverlap : Option Int)
    (defaultSize defaultOverlap : Int) (sep : List Char) :
    ((∃ msg, mkFixedSizeChunker chunkSize chunkOverlap defaultSize defaultOverlap sep =
        Except.error msg) ↔
      pyOrDefault chunkSize defaultSize ≤ pyOrDefault chunkOverlap defaultOverlap) ∧
    (∀ c, mkFixedSizeChunker chunkSize chunkOverlap defaultSize defaultOverlap sep =
        Except.ok c → c.chunk_overlap < c.chunk_size) := by
  unfold mkFixedSizeChunker
  constructor
  · constructor
    · intro ⟨msg, hmsg⟩
      by_contra hle
      rw [if_neg hle] at hmsg
      exact Except.noConfusion hmsg
    · intro hle
      rw [if_pos hle]
      exact ⟨_, rfl⟩
  · intro c hc
    split at hc
    · exact Except.noConfusion hc
    · next hlt =>
      obtain rfl := Except.ok.inj hc
      dsimp only
      omega

/-- C10 witness: constructing with `chunk_size=50`, `chunk_overlap=10`
succeeds, and the constructed chunker satisfies `chunk_overlap < chunk_size`. -/
theorem c10_fixedSizeChunker_init_validation_witness :
    (⟨50, 10, ['\n']⟩ : FixedSizeChunker).chunk_overlap <
      (⟨50, 10, ['\n']⟩ : FixedSizeChunker).chunk_size :=
  (c10_fixedSizeChunker_init_validation (some 50) (some 10) 1000 200 ['\n']).2
    ⟨50, 10, ['\n']⟩ (by rfl)

/-! ### Token utilities (`utils/token_utils.py`) -/

/-- `TokenLimiter.count_tokens` with the default ratio 1.3 tokens per word:
`int(len(text.split()) * 1.3)`, i.e. `⌊13·words/10⌋`. -/
def countTokens (text : List Char) : Nat :=
  13 * (pySplit text).length / 10

/-- Sentence-final punctuation of the `re.split(r&apos;(?<=[.!?])\s+&apos;, ...)`
pattern. -/
def isSentEnd (c : Char) : Bool :=
  c = '.' || c = '!' || c = '?'

/-- Splitting at whitespace runs preceded by sentence-final punctuation
(`re.split(r&apos;(?<=[.!?])\s+&apos;, text)`); `acc` holds the current piece
reversed, the fuel is an upper bound on the remaining text length. -/
def sentenceSplitAux : Nat → List Char → List Char → List (List Char)
  | 0, acc, _ => [acc.reverse]
  | _, acc, [] => [acc.reverse]
  | fuel + 1, acc, c :: cs =>
    if isSentEnd c && (match cs with | d :: _ => pyIsSpace d | [] => false) then
      (c :: acc).reverse :: sentenceSplitAux fuel [] (cs.dropWhile pyIsSpace)
    else
      sentenceSplitAux fuel (c :: acc) cs

/-- Sentence splitting used by `TokenLimiter.truncate_to_tokens`. -/
def sentenceSplit (text : List Char) : List (List Char) :=
  sentenceSplitAux text.length [] text

/-- The sentence-accumulation loop of `truncate_to_tokens`
(`preserve_sentences=True` branch): append whole sentences followed by a
space while they fit the budget, then stop. -/
def truncGo (maxTokens : Nat) : List (List Char) → List Char → Nat → List Char
  | [], acc, _ => acc
  | s :: ss, acc, cur =>
    if cur + countTokens s ≤ maxTokens then
      truncGo maxTokens ss (acc ++ s ++ [' ']) (cur + countTokens s)
    else acc

/-- `TokenLimiter.truncate_to_tokens(text, max_tokens,
preserve_sentences=True)`: return the text unchanged when it already fits,
otherwise accumulate whole sentences while they fit and strip the result. -/
def truncateToTokens (text : List Char) (maxTokens : Nat) : List Char :=
  if countTokens text ≤ maxTokens then text
  else pyStrip (truncGo maxTokens (sentenceSplit text) [] 0)

/-- A search result as consumed by `limit_results_to_tokens`: its text
content and the `truncated` marker (absent, i.e. `false`, on input). -/
structure PackResult where
  content : List Char
  truncated : Bool
deriving Repr, DecidableEq

/-- The loop of `TokenLimiter.limit_results_to_tokens`: include each result
verbatim while its token count fits the remaining budget; at the first
result that does not fit, append a truncated copy when strictly more than
50 tokens of budget remain, and stop. -/
def limitAux (maxTokens : Nat) : List PackResult → Nat → List PackResult
  | [], _ => []
  | r :: rs, cur =>
    if cur + countTokens r.content ≤ maxTokens then
      r :: limitAux maxTokens rs (cur + countTokens r.content)
    else if 50 < maxTokens - cur then
      [⟨truncateToTokens r.content (maxTokens - cur), true⟩]
    else []

/-- `TokenLimiter.limit_results_to_tokens(results, max_tokens)`. -/
def limitResultsToTokens (results : List PackResult) (maxTokens : Nat) :
    List PackResult :=
  limitAux maxTokens results 0

/-- Total estimated token count of a list of results. -/
def sumTokens (l : List PackResult) : Nat :=
  (l.map (fun r => countTokens r.content)).sum

/-- Length of the greedy prefix of results that fits the budget: the first
result whose token count overflows the running total ends the prefix. -/
def packPrefixLen (maxTokens : Nat) : List PackResult → Nat → Nat
  | [], _ => 0
  | r :: rs, cur =>
    if cur + countTokens r.content ≤ maxTokens then
      packPrefixLen maxTokens rs (cur + countTokens r.content) + 1
    else 0

/-- Declarative description of the token packer, following the spec's
words: the greedy fitting prefix, followed — when a result was cut off and
strictly more than 50 tokens of budget remain — by that result truncated
to the remaining budget and marked `truncated`. -/
def packSpecAux (maxTokens : Nat) (rs : List PackResult) (cur : Nat) :
    List PackResult :=
  rs.take (packPrefixLen maxTokens rs cur) ++
  (if h : packPrefixLen maxTokens rs cur < rs.length then
    (if 50 < maxTokens - (cur + sumTokens (rs.take (packPrefixLen maxTokens rs cur))) then
      [⟨truncateToTokens (rs.get ⟨packPrefixLen maxTokens rs cur, h⟩).content
          (maxTokens - (cur + sumTokens (rs.take (packPrefixLen maxTokens rs cur)))),
        true⟩]
    else [])
  else [])

/-- Declarative description of `limit_results_to_tokens` per the spec. -/
def packSpec (results : List PackResult) (maxTokens : Nat) : List PackResult :=
  packSpecAux maxTokens results 0

lemma sumTokens_nil : sumTokens [] = 0 := rfl

lemma sumTokens_cons (r : PackResult) (rs : List PackResult) :
    sumTokens (r :: rs) = countTokens r.content + sumTokens rs := by
  simp [sumTokens]

lemma packPrefixLen_le_length (maxTokens : Nat) :
    ∀ (rs : List PackResult) (cur : Nat), packPrefixLen maxTokens rs cur ≤ rs.length := by
  intro rs
  induction rs with
  | nil => intro cur; simp [packPrefixLen]
  | cons r rs ih =>
    intro cur
    rw [packPrefixLen]
    split
    · simpa using ih (cur + countTokens r.content)
    · simp

lemma packPrefixLen_spec (maxTokens : Nat) :
    ∀ (rs : List PackResult) (cur : Nat), cur ≤ maxTokens →
      cur + sumTokens (rs.take (packPrefixLen maxTokens rs cur)) ≤ maxTokens ∧
      (packPrefixLen maxTokens rs cur < rs.length →
        maxTokens < cur + sumTokens (rs.take (packPrefixLen maxTokens rs cur + 1))) := by
  intro rs
  induction rs with
  | nil =>
    intro cur hc
    simp [packPrefixLen, sumTokens_nil]
    omega
  | cons r rs ih =>
    intro cur hc
    rw [packPrefixLen]
    split
    · next hfit =>
      have := ih (cur + countTokens r.content) hfit
      rw [List.take_succ_cons, sumTokens_cons, List.take_succ_cons, sumTokens_cons]
      constructor
      · omega
      · intro hlt
        have := this.2 (by simpa using hlt)
        omega
    · next hnofit =>
      simp only [List.take_zero, sumTokens_nil, List.take_succ_cons, List.take_zero,
        sumTokens_cons]
      omega

lemma limitAux_eq_packSpecAux (maxTokens : Nat) :
    ∀ (rs : List PackResult) (cur : Nat),
      limitAux maxTokens rs cur = packSpecAux maxTokens rs cur := by
  intro rs
  induction rs with
  | nil => intro cur; simp [limitAux, packSpecAux, packPrefixLen]
  | cons r rs ih =>
    intro cur
    rw [limitAux]
    unfold packSpecAux
    rw [packPrefixLen]
    split
    · next hfit =>
      rw [ih (cur + countTokens r.content)]
      unfold packSpecAux
      rw [List.take_succ_cons]
      simp only [List.length_cons, Nat.add_lt_add_iff_right, List.take_succ_cons,
        sumTokens_cons, List.cons_append, List.get_cons_succ, ← Nat.add_assoc]
    · next hnofit =>
      simp only [List.take_zero, List.nil_append, sumTokens_nil, Nat.add_zero,
        List.length_cons]
      rw [dif_pos (Nat.succ_pos rs.length)]
      rfl

/-! ### Claim C2 -/

/-- A text of exactly 200 estimated tokens: 154 words of one character
(`int(154 * 1.3) = 200`). -/
def twoHundredTokenText : List Char :=
  (List.replicate 154 ['w', ' ']).flatten

/-- A 200-token search result, as in the spec's token-packing scenario. -/
def demoPackResult : PackResult :=
  ⟨twoHundredTokenText, false⟩

set_option maxRecDepth 20000 in
/-- C2 (counterexample): ten results of exactly 200 tokens each with
`max_tokens=450`: after two full results 400 tokens are used, the third
does not fit, and the remaining budget is exactly 50, which is not
strictly greater than 50 — so the packer emits exactly two results and no
truncated result, not the claimed two-plus-one-truncated. -/
theorem c2_tokenPack_counterexample :
    countTokens demoPackResult.content = 200 ∧
    ¬ ((limitResultsToTokens (List.replicate 10 demoPackResult) 450).length = 3) ∧
    ¬ (∃ r ∈ limitResultsToTokens (List.replicate 10 demoPackResult) 450,
        r.truncated = true) := by
  decide

set_option maxRecDepth 20000 in
/-- C2 (amended): the token packer emits results in order — the greedy
prefix of results whose running token total fits `max_tokens` — and, at
the first result that does not fit, appends that result truncated to the
remaining budget with `truncated=true` only when strictly more than 50
tokens of budget remain, then stops; the emitted prefix never exceeds the
budget and is maximal. For ten 200-token results and `max_tokens=450` the
remaining budget at the third result is exactly 50, so exactly two full
results and no truncated result are returned (400 ≤ 450 tokens in total). -/
theorem c2_tokenPack_amended :
    (∀ (results : List PackResult) (maxTokens : Nat),
      limitResultsToTokens results maxTokens = packSpec results maxTokens) ∧
    (∀ (results : List PackResult) (maxTokens : Nat),
      sumTokens (results.take (packPrefixLen maxTokens results 0)) ≤ maxTokens ∧
      (packPrefixLen maxTokens results 0 < results.length →
        maxTokens < sumTokens (results.take (packPrefixLen maxTokens results 0 + 1)))) ∧
    limitResultsToTokens (List.replicate 10 demoPackResult) 450 =
      List.replicate 2 demoPackResult := by
  refine ⟨?_, ?_, by decide⟩
  · intro results maxTokens
    exact limitAux_eq_packSpecAux maxTokens results 0
  · intro results maxTokens
    have := packPrefixLen_spec maxTokens results 0 (Nat.zero_le _)
    simpa using this

/-! ### Multi-stage reranker (`search/reranker.py`) -/

/-- A search result as consumed by `MultiStageReranker.rerank`: the vector
similarity `score` and the five per-metric scores (taken from the stored
payload metadata with default 0.0, the `use_stored_scores` path). -/
structure SearchResult where
  id : List Char
  content : List Char
  score : ℚ
  relevance_score : ℚ
  code_quality_score : ℚ
  formatting_score : ℚ
  metadata_score : ℚ
  initialization_score : ℚ
deriving Repr, DecidableEq

/-- The reranker with its five weights already normalised, as stored by
`MultiStageReranker.__init__`. -/
structure MultiStageReranker where
  relevance_weight : ℚ
  code_quality_weight : ℚ
  formatting_weight : ℚ
  metadata_weight : ℚ
  initialization_weight : ℚ
deriving Repr, DecidableEq

/-- `MultiStageReranker.__init__`: divide each constructor weight by the
total so the stored weights sum to 1 (lines 54–67 of `reranker.py`). -/
def mkMultiStageReranker (wr wc wf wm wi : ℚ) : MultiStageReranker :=
  ⟨wr / (wr + wc + wf + wm + wi),
   wc / (wr + wc + wf + wm + wi),
   wf / (wr + wc + wf + wm + wi),
   wm / (wr + wc + wf + wm + wi),
   wi / (wr + wc + wf + wm + wi)⟩

/-- A reranked result (`RankedResult` in `reranker.py`). -/
structure RankedResult where
  id : List Char
  content : List Char
  vector_score : ℚ
  relevance_score : ℚ
  code_quality_score : ℚ
  formatting_score : ℚ
  metadata_score : ℚ
  initialization_score : ℚ
  final_score : ℚ
deriving Repr, DecidableEq

/-- Per-result scoring of `rerank` (lines 106–131): the weighted metric
combination blended as 0.7·reranked + 0.3·vector. -/
def scoreResult (r : MultiStageReranker) (res : SearchResult) : RankedResult :=
  ⟨res.id, res.content, res.score,
   res.relevance_score, res.code_quality_score, res.formatting_score,
   res.metadata_score, res.initialization_score,
   7/10 * (res.relevance_score * r.relevance_weight +
           res.code_quality_score * r.code_quality_weight +
           res.formatting_score * r.formatting_weight +
           res.metadata_score * r.metadata_weight +
           res.initialization_score * r.initialization_weight) +
   3/10 * res.score⟩

/-- Descending order on final score, the sort key of
`ranked.sort(key=..., reverse=True)`. -/
def rankedGE (a b : RankedResult) : Prop :=
  b.final_score ≤ a.final_score

instance : DecidableRel rankedGE :=
  fun a b => inferInstanceAs (Decidable (b.final_score ≤ a.final_score))

instance : IsTotal RankedResult rankedGE :=
  ⟨fun a b => le_total b.final_score a.final_score⟩

instance : IsTrans RankedResult rankedGE :=
  ⟨fun _ _ _ hab hbc => le_trans hbc hab⟩

/-- `MultiStageReranker.rerank` (stored-scores path): score every result
and stable-sort by final score descending. -/
def rerank (r : MultiStageReranker) (results : List SearchResult) :
    List RankedResult :=
  List.insertionSort rankedGE (results.map (scoreResult r))

/-! ### Claim C1 -/

/-- C1: for any constructor weights with nonzero sum and any result list,
`rerank` returns a permutation of the scored results, sorted by final
score in descending order; the stored weights are the constructor weights
normalised to sum to 1, and every result's final score is
0.7·(Σ wᵢ·scoreᵢ)/(Σ wᵢ) + 0.3·vector_score. -/
theorem c1_rerank_final_score_and_order (wr wc wf wm wi : ℚ)
    (h : wr + wc + wf + wm + wi ≠ 0) (results : List SearchResult) :
    ((mkMultiStageReranker wr wc wf wm wi).relevance_weight +
     (mkMultiStageReranker wr wc wf wm wi).code_quality_weight +
     (mkMultiStageReranker wr wc wf wm wi).formatting_weight +
     (mkMultiStageReranker wr wc wf wm wi).metadata_weight +
     (mkMultiStageReranker wr wc wf wm wi).initialization_weight = 1) ∧
    (rerank (mkMultiStageReranker wr wc wf wm wi) results).Perm
      (results.map (scoreResult (mkMultiStageReranker wr wc wf wm wi))) ∧
    List.Sorted rankedGE (rerank (mkMultiStageReranker wr wc wf wm wi) results) ∧
    (∀ res ∈ results,
      (scoreResult (mkMultiStageReranker wr wc wf wm wi) res).final_score =
        7/10 * ((wr * res.relevance_score + wc * res.code_quality_score +
                 wf * res.formatting_score + wm * res.metadata_score +
                 wi * res.initialization_score) / (wr + wc + wf + wm + wi)) +
        3/10 * res.score) := by
  refine ⟨?_, ?_, ?_, ?_⟩
  · unfold mkMultiStageReranker
    field_simp
  · exact List.perm_insertionSort rankedGE _
  · exact List.sorted_insertionSort rankedGE _
  · intro res _
    unfold scoreResult mkMultiStageReranker
    field_simp
    ring

/-- C1 witness: the theorem instantiated at the default weights
0.35, 0.25, 0.15, 0.10, 0.15 and a two-element result list. -/
theorem c1_rerank_final_score_and_order_witness :
    List.Sorted rankedGE
      (rerank (mkMultiStageReranker (35/100) (25/100) (15/100) (10/100) (15/100))
        [⟨['a'], ['x'], 1/2, 1, 0, 0, 0, 0⟩, ⟨['b'], ['y'], 9/10, 0, 0, 0, 0, 0⟩]) :=
  (c1_rerank_final_score_and_order (35/100) (25/100) (15/100) (10/100) (15/100)
    (by norm_num)
    [⟨['a'], ['x'], 1/2, 1, 0, 0, 0, 0⟩, ⟨['b'], ['y'], 9/10, 0, 0, 0, 0, 0⟩]).2.2.1

/-! ### Relevance scoring (`MultiStageReranker._compute_relevance_score`) -/

/-- `MultiStageReranker._compute_relevance_score` (lines 140–178), as the
source computes it: start from 0; add 0.4 on an exact (case-insensitive)
phrase match; add 0.3 times |query words ∩ content words| / |query words|
when the query has words; then for each whitespace-separated query term of
length at least 3 that occurs in the content add
min(0.1·(count/10), 0.3); finally cap at 1.0. -/
def computeRelevanceScore (query content : List Char) : ℚ :=
  min
    ((pySplit (pyLower query)).foldl
      (fun s term =>
        if term.length < 3 then s
        else if 0 < pyCount (pyLower content) term then
          s + min (1/10 * ((pyCount (pyLower content) term : ℚ) / 10)) (3/10)
        else s)
      ((if pyIsSubstring (pyLower query) (pyLower content) then (4:ℚ)/10 else 0) +
       (if (pyFindWords (pyLower query)).toFinset ≠ ∅ then
          3/10 * ((((pyFindWords (pyLower query)).toFinset ∩
                    (pyFindWords (pyLower content)).toFinset).card : ℚ) /
                  ((pyFindWords (pyLower query)).toFinset.card : ℚ))
        else 0)))
    1

/-- Exact-phrase bonus of the relevance score, per the spec. -/
def relevancePhraseBonus (queryLower contentLower : List Char) : ℚ :=
  if pyIsSubstring queryLower contentLower then 4/10 else 0

/-- Word-overlap term of the relevance score as the source computes it:
0.3 · |Q ∩ C| / |Q| over the word sets (overlap relative to the query,
not Jaccard). -/
def relevanceQueryOverlap (queryLower contentLower : List Char) : ℚ :=
  if (pyFindWords queryLower).toFinset = ∅ then 0
  else 3/10 * ((((pyFindWords queryLower).toFinset ∩
                 (pyFindWords contentLower).toFinset).card : ℚ) /
               ((pyFindWords queryLower).toFinset.card : ℚ))

/-- Word-overlap term as the claim states it: 0.3 times the Jaccard
similarity |Q ∩ C| / |Q ∪ C| of the word sets. -/
def relevanceJaccard (queryLower contentLower : List Char) : ℚ :=
  if (pyFindWords queryLower).toFinset ∪ (pyFindWords contentLower).toFinset = ∅ then 0
  else 3/10 * ((((pyFindWords queryLower).toFinset ∩
                 (pyFindWords contentLower).toFinset).card : ℚ) /
               (((pyFindWords queryLower).toFinset ∪
                 (pyFindWords contentLower).toFinset).card : ℚ))

/-- Per-term frequency bonus, per the spec: min(0.1·count/10, 0.3) for
terms of length at least 3 occurring in the content. -/
def termFrequencyBonus (contentLower term : List Char) : ℚ :=
  if 3 ≤ term.length ∧ 0 < pyCount contentLower term then
    min (1/10 * ((pyCount contentLower term : ℚ) / 10)) (3/10)
  else 0

/-- The relevance score as claim C5 states it, with the Jaccard word
overlap. -/
def relevanceScoreJaccard (query content : List Char) : ℚ :=
  min
    (relevancePhraseBonus (pyLower query) (pyLower content) +
     relevanceJaccard (pyLower query) (pyLower content) +
     ((pySplit (pyLower query)).map (termFrequencyBonus (pyLower content))).sum)
    1

/-- The relevance score in closed form with the query-relative word
overlap — the amended claim. -/
def relevanceScoreSpec (query content : List Char) : ℚ :=
  min
    (relevancePhraseBonus (pyLower query) (pyLower content) +
     relevanceQueryOverlap (pyLower query) (pyLower content) +
     ((pySplit (pyLower query)).map (termFrequencyBonus (pyLower content))).sum)
    1

lemma relevance_foldl_eq_sum (contentLower : List Char) :
    ∀ (terms : List (List Char)) (a : ℚ),
      terms.foldl
        (fun s term =>
          if term.length < 3 then s
          else if 0 < pyCount contentLower term then
            s + min (1/10 * ((pyCount contentLower term : ℚ) / 10)) (3/10)
          else s) a =
      a + (terms.map (termFrequencyBonus contentLower)).sum := by
  intro terms
  induction terms with
  | nil => intro a; simp
  | cons t ts ih =>
    intro a
    rw [List.foldl_cons, List.map_cons, List.sum_cons, ih]
    unfold termFrequencyBonus
    by_cases h1 : t.length < 3
    · rw [if_pos h1, if_neg (by omega)]
      ring
    · rw [if_neg h1]
      by_cases h2 : 0 < pyCount contentLower t
      · rw [if_pos h2, if_pos ⟨by omega, h2⟩]
        ring
      · rw [if_neg h2, if_neg (by tauto)]
        ring

/-! ### Claim C5 -/

/-- C5 (counterexample): for query "ab" and content "ab xy" the code gives
0.4 (phrase) + 0.3·(1/1) (query-relative overlap) = 0.7, while the claim's
Jaccard overlap gives 0.4 + 0.3·(1/2) = 0.55; the term loop skips "ab"
(length < 3). -/
theorem c5_relevance_counterexample :
    computeRelevanceScore ("ab".toList) ("ab xy".toList) = 7/10 ∧
    relevanceScoreJaccard ("ab".toList) ("ab xy".toList) = 11/20 ∧
    computeRelevanceScore ("ab".toList) ("ab xy".toList) ≠
      relevanceScoreJaccard ("ab".toList) ("ab xy".toList) := by
  have h1 : pySplit (pyLower ("ab".toList)) = [['a', 'b']] := by decide
  have h2 : pyIsSubstring (pyLower ("ab".toList)) (pyLower ("ab xy".toList)) = true := by
    decide
  have h3 : (pyFindWords (pyLower ("ab".toList))).toFinset =
      ({['a', 'b']} : Finset (List Char)) := by decide
  have h4 : (pyFindWords (pyLower ("ab xy".toList))).toFinset =
      ({['a', 'b'], ['x', 'y']} : Finset (List Char)) := by decide
  have h5 : (({['a', 'b']} : Finset (List Char)) ∩ {['a', 'b'], ['x', 'y']}).card = 1 := by
    decide
  have h6 : (({['a', 'b']} : Finset (List Char)) ∪ {['a', 'b'], ['x', 'y']}).card = 2 := by
    decide
  have h7 : (({['a', 'b']} : Finset (List Char))).card = 1 := by decide
  have hfirst : computeRelevanceScore ("ab".toList) ("ab xy".toList) = 7/10 := by
    unfold computeRelevanceScore
    rw [h1, h2, h3, h4]
    rw [List.foldl_cons, List.foldl_nil]
    rw [if_pos (by decide : (['a', 'b'] : List Char).length < 3)]
    rw [if_pos (by decide : ({['a', 'b']} : Finset (List Char)) ≠ ∅)]
    rw [if_pos rfl, h5, h7]
    norm_num
  have hsecond : relevanceScoreJaccard ("ab".toList) ("ab xy".toList) = 11/20 := by
    unfold relevanceScoreJaccard relevancePhraseBonus relevanceJaccard termFrequencyBonus
    rw [h1, h2, h3, h4]
    rw [List.map_cons, List.map_nil, List.sum_cons, List.sum_nil]
    rw [if_neg (by decide : ¬ (3 ≤ (['a', 'b'] : List Char).length ∧
      0 < pyCount (pyLower ("ab xy".toList)) ['a', 'b']))]
    rw [if_neg (by decide :
      ¬ ({['a', 'b']} : Finset (List Char)) ∪ {['a', 'b'], ['x', 'y']} = ∅)]
    rw [if_pos rfl, h5, h6]
    norm_num
  refine ⟨hfirst, hsecond, ?_⟩
  rw [hfirst, hsecond]
  norm_num

/-- C5 (amended): for every query Q and content C, the relevance score
equals min(1.0, s) where s is the sum of: 0.4 if Q occurs in C as an exact
phrase (case-insensitively); 0.3 times |Qw ∩ Cw| / |Qw| over the word sets
(the word overlap relative to the query, not Jaccard similarity; 0 when
the query has no words); and, for each whitespace-separated term t of Q
with length ≥ 3 occurring in C, min(0.1·count(t,C)/10, 0.3). -/
theorem c5_relevance_amended (query content : List Char) :
    computeRelevanceScore query content = relevanceScoreSpec query content := by
  have hov : (if (pyFindWords (pyLower query)).toFinset = ∅ then (0:ℚ)
      else 3/10 * ((((pyFindWords (pyLower query)).toFinset ∩
                     (pyFindWords (pyLower content)).toFinset).card : ℚ) /
                   ((pyFindWords (pyLower query)).toFinset.card : ℚ))) =
      (if (pyFindWords (pyLower query)).toFinset ≠ ∅ then
        3/10 * ((((pyFindWords (pyLower query)).toFinset ∩
                  (pyFindWords (pyLower content)).toFinset).card : ℚ) /
                ((pyFindWords (pyLower query)).toFinset.card : ℚ))
       else 0) := by
    by_cases h : (pyFindWords (pyLower query)).toFinset = ∅
    · rw [if_pos h, if_neg (not_not_intro h)]
    · rw [if_neg h, if_pos h]
  unfold computeRelevanceScore relevanceScoreSpec relevancePhraseBonus relevanceQueryOverlap
  rw [relevance_foldl_eq_sum, hov]

/-! ### URL parsing (`urllib.parse.urlparse` as used by the crawlers) -/

/-- Characters stripped from both ends of a URL by `urlsplit`
(WHATWG C0 controls and space). -/
def isC0OrSpace (c : Char) : Bool :=
  c.toNat ≤ 32

/-- The end-stripping step of `urlsplit`. -/
def stripC0 (l : List Char) : List Char :=
  ((l.dropWhile isC0OrSpace).reverse.dropWhile isC0OrSpace).reverse

/-- The unsafe-byte removal step of `urlsplit` (tab, CR, LF anywhere). -/
def removeUnsafe (l : List Char) : List Char :=
  l.filter (fun c => !(c = '\t' || c = '\r' || c = '\n'))

/-- Both cleaning steps of `urlsplit`. -/
def urlCleaned (url : List Char) : List Char :=
  removeUnsafe (stripC0 url)

/-- Characters allowed in a URL scheme. -/
def isSchemeChar (c : Char) : Bool :=
  c.isAlphanum || c = '+' || c = '-' || c = '.'

/-- The candidate scheme: everything before the first ':'. -/
def schemePre (l : List Char) : List Char :=
  l.takeWhile (fun c => c != ':')

/-- Is the head of the candidate scheme an ASCII letter? -/
def firstIsAlpha : List Char → Bool
  | [] => false
  | c :: _ => c.isAlpha

/-- Scheme extraction of `urlsplit`: when a ':' exists, the prefix before
it is nonempty, starts with a letter and has only scheme characters, the
lowercased prefix is the scheme and the rest follows the ':'. -/
def splitScheme (l : List Char) : List Char × List Char :=
  if (schemePre l).length < l.length && firstIsAlpha (schemePre l) &&
      (schemePre l).all isSchemeChar then
    ((schemePre l).map Char.toLower, l.drop ((schemePre l).length + 1))
  else ([], l)

/-- Characters ending the netloc. -/
def isNetlocDelim (c : Char) : Bool :=
  c = '/' || c = '?' || c = '#'

/-- Netloc extraction of `urlsplit`: after a leading `//`, up to the first
of `/`, `?`, `#`. -/
def splitNetloc (l : List Char) : List Char × List Char :=
  if l.take 2 = ['/', '/'] then
    ((l.drop 2).takeWhile (fun c => !isNetlocDelim c),
     (l.drop 2).dropWhile (fun c => !isNetlocDelim c))
  else ([], l)

/-- Python `s.split(sep, 1)`: the part before the first occurrence of
`sep` and the part after it (empty when `sep` is absent). -/
def splitOnFirst (sep : Char) (l : List Char) : List Char × List Char :=
  (l.takeWhile (fun c => c != sep), (l.dropWhile (fun c => c != sep)).drop 1)

/-- Rest of the URL after the scheme. -/
def afterScheme (url : List Char) : List Char :=
  (splitScheme (urlCleaned url)).2

/-- The parsed scheme. -/
def urlScheme (url : List Char) : List Char :=
  (splitScheme (urlCleaned url)).1

/-- The parsed netloc. -/
def urlNetloc (url : List Char) : List Char :=
  (splitNetloc (afterScheme url)).1

/-- Rest of the URL after the netloc. -/
def afterNetloc (url : List Char) : List Char :=
  (splitNetloc (afterScheme url)).2

/-- The URL up to the fragment. -/
def beforeFragment (url : List Char) : List Char :=
  (splitOnFirst '#' (afterNetloc url)).1

/-- The parsed fragment. -/
def urlFragment (url : List Char) : List Char :=
  (splitOnFirst '#' (afterNetloc url)).2

/-- The path component of `urlsplit` (the params are still attached:
`urlsplit` never splits them off). -/
def urlsplitPath (url : List Char) : List Char :=
  (splitOnFirst '?' (beforeFragment url)).1

/-- The parsed query string. -/
def urlQuery (url : List Char) : List Char :=
  (splitOnFirst '?' (beforeFragment url)).2

/-- Python `s.find(c, start)`: the first index `i ≥ start` with
`s[i] = c`, if any. -/
def pyFindFrom (c : Char) (l : List Char) (start : Nat) : Option Nat :=
  (List.range' start (l.length - start)).find? (fun i => l.get? i == some c)

/-- Python `s.rfind(c)` for a single character: the largest index with
`s[i] = c`, if any. -/
def pyRfindChar (c : Char) (l : List Char) : Option Nat :=
  ((List.range l.length).filter (fun i => l.get? i == some c)).getLast?

/-- `urllib.parse.uses_params`: the schemes for which `urlparse` splits
a params component off the path. -/
def usesParams : List (List Char) :=
  [[], "ftp".toList, "hdl".toList, "prospero".toList, "http".toList,
   "imap".toList, "https".toList, "shttp".toList, "rtsp".toList,
   "rtsps".toList, "rtspu".toList, "sip".toList, "sips".toList,
   "mms".toList, "sftp".toList, "tel".toList]

/-- `urllib.parse._splitparams`: the path is cut at the first `;` at or
after the last `/` (searched from the start when the path has no `/`);
when that search finds no `;` the path is kept whole. (`urlparse` only
calls this when the path contains a `;`, so the CPython corner case of
`find` returning -1 with no `/` present is unreachable and modelled as
the identity.) -/
def splitParams (l : List Char) : List Char × List Char :=
  match (if l.contains '/' then
           match pyRfindChar '/' l with
           | some j => pyFindFrom ';' l j
           | none => none
         else pyFindFrom ';' l 0) with
  | some i => (l.take i, l.drop (i + 1))
  | none => (l, [])

/-- The parsed path of `urlparse`: the `urlsplit` path, with the params
split off when the scheme uses params and the path contains a `;`
(`if scheme in uses_params and ';' in url` in `urlparse`). -/
def urlPath (url : List Char) : List Char :=
  if usesParams.contains (urlScheme url) && (urlsplitPath url).contains ';' then
    (splitParams (urlsplitPath url)).1
  else urlsplitPath url

/-- The parsed params of `urlparse` (empty when no split happens). -/
def urlParams (url : List Char) : List Char :=
  if usesParams.contains (urlScheme url) && (urlsplitPath url).contains ';' then
    (splitParams (urlsplitPath url)).2
  else []

/-- Result of `urllib.parse.urlparse`. -/
structure ParsedUrl where
  scheme : List Char
  netloc : List Char
  path : List Char
  params : List Char
  query : List Char
  fragment : List Char
deriving Repr, DecidableEq

/-- `urllib.parse.urlparse`, restricted to the six components of the
result tuple. -/
def pyUrlparse (url : List Char) : ParsedUrl :=
  ⟨urlScheme url, urlNetloc url, urlPath url, urlParams url, urlQuery url,
   urlFragment url⟩

/-! ### URL normalisation (`Crawl4AICrawler._normalize_url`) -/

/-- The reassembled `f"{scheme}://{netloc}{path}"` of `_normalize_url`. -/
def normalizeRaw (url : List Char) : List Char :=
  urlScheme url ++ ':' :: '/' :: '/' :: (urlNetloc url ++ urlPath url)

/-- The trailing-slash strip of `_normalize_url`: remove one trailing `/`
unless the parsed path is exactly `/`. -/
def normalizeBase (url : List Char) : List Char :=
  if (normalizeRaw url).getLast? = some '/' ∧ urlPath url ≠ ['/'] then
    (normalizeRaw url).dropLast
  else normalizeRaw url

/-- `Crawl4AICrawler._normalize_url` (lines 444–462): empty for empty
input; otherwise scheme://netloc+path with the fragment dropped, one
trailing slash stripped except at the root, and the query preserved. -/
def normalizeUrl (url : List Char) : List Char :=
  if url = [] then []
  else if urlQuery url ≠ [] then normalizeBase url ++ '?' :: urlQuery url
  else normalizeBase url

/-! ### Crawler admission and discovery -/

/-- Modelled from the spec: per-host robots exclusion rules (the concrete
parsing of `robots.txt` lives in `urllib.robotparser`, outside this
repository): a URL is disallowed when some rule's host equals its netloc
and the rule's path is a prefix of its path; fail-open otherwise. -/
structure RobotsPolicy where
  disallow : List (List Char × List Char)

/-- Modelled from the spec: whether the robots policy allows fetching a
URL. -/
def robotsAllows (pol : RobotsPolicy) (url : List Char) : Bool :=
  !(pol.disallow.any (fun rule =>
      rule.1 == urlNetloc url && rule.2.isPrefixOf (urlPath url)))

/-- `WebCrawler._should_crawl` (lines 226–243 of `web_crawler.py`): admit
iff the scheme is http(s), there is no fragment, and the netloc matches an
allowed domain when domains are given. The robots policy is *not*
consulted — the predicate does not even receive one. -/
def webCrawlerShouldCrawl (url : List Char) (allowedDomains : List (List Char)) : Bool :=
  if !(urlScheme url == "http".toList || urlScheme url == "https".toList) then false
  else if urlFragment url != [] then false
  else if allowedDomains != [] &&
      !(allowedDomains.any (fun d => d.isSuffixOf (urlNetloc url))) then false
  else true

/-- The URL selection of `WebCrawler.fetch` (lines 89–110): when the
sitemap yields any URLs, take the first `max_pages` of them and never run
BFS discovery; otherwise use the BFS result. No robots or pattern filter
is applied to sitemap URLs. -/
def webCrawlerPlanUrls (sitemapUrls : List (List Char)) (maxPages : Nat)
    (bfsUrls : List (List Char)) : List (List Char) :=
  if sitemapUrls ≠ [] then sitemapUrls.take maxPages else bfsUrls

/-- A fetched document (`FetchedDocument`): the URL it was fetched from
and its content. -/
structure FetchedDoc where
  url : List Char
  content : List Char
deriving Repr, DecidableEq

/-- `WebCrawler._fetch_urls`: fetch every URL, dropping failures
(`fetcher u = none`); a success yields a document whose `url` field is the
fetched URL. -/
def webFetchUrls (fetcher : List Char → Option (List Char))
    (urls : List (List Char)) : List FetchedDoc :=
  urls.filterMap (fun u => (fetcher u).map (fun c => FetchedDoc.mk u c))

/-- `WebCrawler.fetch`: plan the URLs (sitemap first) and fetch them. -/
def webCrawlerFetch (sitemapUrls : List (List Char)) (maxPages : Nat)
    (bfsUrls : List (List Char)) (fetcher : List Char → Option (List Char)) :
    List FetchedDoc :=
  webFetchUrls fetcher (webCrawlerPlanUrls sitemapUrls maxPages bfsUrls)

/-- `Crawl4AICrawler._discover_from_sitemap` (lines 200–238): `none` when
the sitemap yields nothing (or the seeder fails); otherwise the sitemap
URLs, filtered by robots when `respect_robots`, capped to `max_pages` —
possibly the empty list when the filter removes everything. -/
def crawl4aiDiscoverFromSitemap (sitemapUrls : List (List Char)) (pol : RobotsPolicy)
    (respectRobots : Bool) (maxPages : Nat) : Option (List (List Char)) :=
  if sitemapUrls = [] then none
  else if respectRobots then some ((sitemapUrls.filter (robotsAllows pol)).take maxPages)
  else some (sitemapUrls.take maxPages)

/-- The mode decision of `Crawl4AICrawler.fetch` (lines 124–154):
sitemap-based crawling is used iff the discovery returned a *nonempty*
URL list (`if urls_to_fetch:` — an empty list is falsy and falls back to
BFS). -/
def crawl4aiUsesSitemap (sitemapUrls : List (List Char)) (pol : RobotsPolicy)
    (respectRobots : Bool) (maxPages : Nat) : Bool :=
  match crawl4aiDiscoverFromSitemap sitemapUrls pol respectRobots maxPages with
  | some us => us != []
  | none => false

lemma length_filterMap_of_isSome {α β : Type} (f : α → Option β) :
    ∀ l : List α, (∀ a, (f a).isSome) → (l.filterMap f).length = l.length := by
  intro l h
  induction l with
  | nil => rfl
  | cons a as ih =>
    have ha := h a
    rw [List.filterMap_cons]
    cases hfa : f a with
    | none => simp [hfa] at ha
    | some b => simpa using ih

/-! ### Claim C6 -/

/-- C6 (code bug): with `respect_robots_txt` on, `WebCrawler` never
consults robots: a URL disallowed by the robots policy for its host still
passes `WebCrawler._should_crawl` (which checks only scheme, fragment and
domain), and in sitemap mode the URL list is taken from the sitemap with
no filter at all, so the disallowed URL is fetched. This contradicts the
class's own docstring ("Respects robots.txt") and the spec. -/
theorem c6_webCrawler_ignores_robots :
    robotsAllows ⟨[("example.com".toList, "/private".toList)]⟩
      ("https://example.com/private/page".toList) = false ∧
    webCrawlerShouldCrawl ("https://example.com/private/page".toList)
      ["example.com".toList] = true ∧
    "https://example.com/private/page".toList ∈
      webCrawlerPlanUrls ["https://example.com/private/page".toList] 10 [] := by
  refine ⟨by decide, by decide, by decide⟩

/-! ### Claim C7 -/

/-- C7 (counterexample): in the Crawl4AI crawler, a sitemap that yields at
least one URL does *not* preclude BFS fallback: when robots filtering
removes every sitemap URL the discovery returns the empty list, which is
falsy, and `fetch` falls back to BFS crawling. -/
theorem c7_sitemap_counterexample :
    (["https://example.com/secret".toList] : List (List Char)) ≠ [] ∧
    crawl4aiUsesSitemap ["https://example.com/secret".toList]
      ⟨[("example.com".toList, "/secret".toList)]⟩ true 10 = false := by
  refine ⟨by decide, by decide⟩

/-- C7 (amended): in `WebCrawler.fetch`, a nonempty sitemap always wins:
the fetched documents are independent of the BFS result, at most
`max_pages` many, and all drawn from the sitemap; when every URL is
reachable, exactly `min max_pages (sitemap length)` documents are
fetched. In the Crawl4AI crawler, sitemap mode is used when the discovery
(robots filtering included) returns a nonempty list, in which case the
fetched URLs are drawn from the sitemap and capped to `max_pages`;
when robots filtering empties the list, it falls back to BFS. -/
theorem c7_sitemap_cap (sitemapUrls : List (List Char)) (maxPages : Nat)
    (bfsUrls bfsUrls' : List (List Char)) (fetcher : List Char → Option (List Char))
    (hne : sitemapUrls ≠ []) :
    (webCrawlerFetch sitemapUrls maxPages bfsUrls fetcher =
      webCrawlerFetch sitemapUrls maxPages bfsUrls' fetcher) ∧
    (webCrawlerFetch sitemapUrls maxPages bfsUrls fetcher).length ≤ maxPages ∧
    (∀ d ∈ webCrawlerFetch sitemapUrls maxPages bfsUrls fetcher,
      d.url ∈ sitemapUrls) ∧
    ((∀ u, (fetcher u).isSome) →
      (webCrawlerFetch sitemapUrls maxPages bfsUrls fetcher).length =
        min maxPages sitemapUrls.length) ∧
    (∀ pol respectRobots us,
      crawl4aiDiscoverFromSitemap sitemapUrls pol respectRobots maxPages = some us →
      us ≠ [] →
      crawl4aiUsesSitemap sitemapUrls pol respectRobots maxPages = true ∧
      us.length ≤ maxPages ∧ ∀ u ∈ us, u ∈ sitemapUrls) := by
  unfold webCrawlerFetch webCrawlerPlanUrls
  rw [if_pos hne, if_pos hne]
  refine ⟨rfl, ?_, ?_, ?_, ?_⟩
  · calc (webFetchUrls fetcher (sitemapUrls.take maxPages)).length
        ≤ (sitemapUrls.take maxPages).length := by
          unfold webFetchUrls
          exact List.length_filterMap_le _ _
      _ ≤ maxPages := by
          rw [List.length_take]
          exact min_le_left _ _
  · intro d hd
    unfold webFetchUrls at hd
    obtain ⟨u, hu, hmap⟩ := List.mem_filterMap.mp hd
    cases hfu : fetcher u with
    | none => rw [hfu] at hmap; exact absurd hmap (by simp)
    | some c =>
      rw [hfu] at hmap
      obtain rfl := Option.some.inj hmap
      exact List.take_subset _ _ hu
  · intro hall
    unfold webFetchUrls
    rw [length_filterMap_of_isSome _ _ (fun u => by
      cases hfu : fetcher u with
      | none => have := hall u; simp [hfu] at this
      | some c => simp [hfu])]
    rw [List.length_take]
  · intro pol respectRobots us hdisc hne'
    unfold crawl4aiUsesSitemap
    rw [hdisc]
    refine ⟨by simpa using hne', ?_, ?_⟩
    · unfold crawl4aiDiscoverFromSitemap at hdisc
      rw [if_neg hne] at hdisc
      split at hdisc
      · obtain rfl := Option.some.inj hdisc
        rw [List.length_take]
        exact min_le_left _ _
      · obtain rfl := Option.some.inj hdisc
        rw [List.length_take]
        exact min_le_left _ _
    · intro u hu
      unfold crawl4aiDiscoverFromSitemap at hdisc
      rw [if_neg hne] at hdisc
      split at hdisc
      · obtain rfl := Option.some.inj hdisc
        exact List.mem_of_mem_filter (List.take_subset _ _ hu)
      · obtain rfl := Option.some.inj hdisc
        exact List.take_subset _ _ hu

/-- C7 witness: the spec scenario — sitemap lists three reachable URLs,
`max_pages = 2`: the fetch result ignores the BFS list and yields exactly
`min 2 3 = 2` documents. -/
theorem c7_sitemap_cap_witness :
    (webCrawlerFetch ["https://e.com/p1".toList, "https://e.com/p2".toList,
        "https://e.com/p3".toList] 2 ["https://e.com/bfs".toList]
        (fun u => some u) =
      webCrawlerFetch ["https://e.com/p1".toList, "https://e.com/p2".toList,
        "https://e.com/p3".toList] 2 [] (fun u => some u)) ∧
    (webCrawlerFetch ["https://e.com/p1".toList, "https://e.com/p2".toList,
        "https://e.com/p3".toList] 2 ["https://e.com/bfs".toList]
        (fun u => some u)).length = min 2 3 :=
  ⟨(c7_sitemap_cap ["https://e.com/p1".toList, "https://e.com/p2".toList,
      "https://e.com/p3".toList] 2 ["https://e.com/bfs".toList] []
      (fun u => some u) (by decide)).1,
   (c7_sitemap_cap ["https://e.com/p1".toList, "https://e.com/p2".toList,
      "https://e.com/p3".toList] 2 ["https://e.com/bfs".toList] []
      (fun u => some u) (by decide)).2.2.2.1 (fun u => rfl)⟩

/-! ### Claim C9 (counterexample) -/

/-- C9 (counterexample): URL normalisation is not idempotent: it strips
only one trailing slash, so `http://h/p//` normalises to `http://h/p/`,
which normalises again to `http://h/p`. -/
theorem c9_normalize_counterexample :
    normalizeUrl (normalizeUrl ("http://h/p//".toList)) ≠
      normalizeUrl ("http://h/p//".toList) := by
  decide

/-! ### Embedding cache (`embeddings/cache.py`) -/

/-- A JSON value, as produced by `json.dumps` / consumed by `json.loads`
(numbers are modelled as exact rationals; only the constructors the cache
uses are relevant). -/
inductive JsonValue where
  | num (q : ℚ)
  | str (s : List Char)
  | arr (elems : List JsonValue)

/-- `json.dumps(embedding)` for a vector of floats: a JSON array of
numbers. -/
def jsonDumpsVec (v : List ℚ) : JsonValue :=
  JsonValue.arr (v.map JsonValue.num)

/-- Reading a list of numbers back element-wise. -/
def jsonLoadsNums : List JsonValue → Option (List ℚ)
  | [] => some []
  | JsonValue.num q :: rest =>
    match jsonLoadsNums rest with
    | some qs => some (q :: qs)
    | none => none
  | _ :: _ => none

/-- `json.loads` of a cached embedding: a JSON array of numbers yields the
vector (the `List[float]` contract of the cache), anything else fails. -/
def jsonLoadsVec : JsonValue → Option (List ℚ)
  | JsonValue.arr elems => jsonLoadsNums elems
  | _ => none

lemma jsonLoadsNums_map_num (v : List ℚ) :
    jsonLoadsNums (v.map JsonValue.num) = some v := by
  induction v with
  | nil => rfl
  | cons q qs ih =>
    rw [List.map_cons]
    show (match jsonLoadsNums (qs.map JsonValue.num) with
      | some l => some (q :: l)
      | none => none) = some (q :: qs)
    rw [ih]

lemma jsonLoadsVec_dumps (v : List ℚ) : jsonLoadsVec (jsonDumpsVec v) = some v :=
  jsonLoadsNums_map_num v

/-- One stored cache entry: the serialised value and its expiry instant
(`SETEX key ttl value` stores for `ttl` seconds). -/
structure CacheEntry where
  value : JsonValue
  expiresAt : Nat

/-- `EmbeddingCache._make_key`: the configured key prefix followed by the
hash of `f"{model}:{text}"`. The hash function is a parameter of the
model; only its determinism matters here. -/
def makeKey (hashFn : List Char → List Char) (pre text model : List Char) :
    List Char :=
  pre ++ hashFn (model ++ ':' :: text)

/-- `EmbeddingCache.set`: `SETEX` of the serialised vector under the
derived key, expiring `ttl` seconds after `now` (newest entry first). -/
def cacheSet (hashFn : List Char → List Char) (pre : List Char) (ttl : Nat)
    (store : List (List Char × CacheEntry)) (now : Nat)
    (text model : List Char) (v : List ℚ) : List (List Char × CacheEntry) :=
  (makeKey hashFn pre text model, ⟨jsonDumpsVec v, now + ttl⟩) :: store

/-- Latest entry stored under a key. -/
def findEntry (key : List Char) : List (List Char × CacheEntry) → Option CacheEntry
  | [] => none
  | e :: rest => if e.1 = key then some e.2 else findEntry key rest

/-- `EmbeddingCache.get`: look the derived key up; a live entry (not yet
expired) is deserialised with `json.loads`. -/
def cacheGet (hashFn : List Char → List Char) (pre : List Char)
    (store : List (List Char × CacheEntry)) (now : Nat)
    (text model : List Char) : Option (List ℚ) :=
  match findEntry (makeKey hashFn pre text model) store with
  | some entry => if now < entry.expiresAt then jsonLoadsVec entry.value else none
  | none => none

/-- An intervening `set` operation on the cache. -/
structure CacheOp where
  time : Nat
  text : List Char
  model : List Char
  vec : List ℚ

/-- Apply a sequence of `set` operations to the store. -/
def applyCacheSets (hashFn : List Char → List Char) (pre : List Char) (ttl : Nat)
    (store : List (List Char × CacheEntry)) (ops : List CacheOp) :
    List (List Char × CacheEntry) :=
  ops.foldl (fun st op => cacheSet hashFn pre ttl st op.time op.text op.model op.vec)
    store

lemma findEntry_applyCacheSets (hashFn : List Char → List Char) (pre : List Char)
    (ttl : Nat) (key : List Char) :
    ∀ (ops : List CacheOp) (store : List (List Char × CacheEntry)),
      (∀ op ∈ ops, makeKey hashFn pre op.text op.model ≠ key) →
      findEntry key (applyCacheSets hashFn pre ttl store ops) =
        findEntry key store := by
  intro ops
  induction ops with
  | nil => intro store _; rfl
  | cons op ops ih =>
    intro store hops
    unfold applyCacheSets
    rw [List.foldl_cons]
    have h1 := ih (cacheSet hashFn pre ttl store op.time op.text op.model op.vec)
      (fun o ho => hops o (List.mem_cons_of_mem _ ho))
    unfold applyCacheSets at h1
    rw [h1]
    unfold cacheSet
    rw [findEntry]
    dsimp only
    rw [if_neg (hops op (List.mem_cons_self _ _))]

/-! ### Claim C8 -/

/-- C8: after `EmbeddingCache.set(text, model, v)` at time `now`, a `get`
of the same `(text, model)` at any time strictly within the TTL — with any
intervening `set`s on other keys, and no eviction or overwrite of this key
— returns exactly `v`: the key derivation is deterministic and the JSON
serialisation round-trips the vector. -/
theorem c8_cache_roundtrip (hashFn : List Char → List Char) (pre : List Char)
    (ttl : Nat) (store : List (List Char × CacheEntry)) (now now' : Nat)
    (text model : List Char) (v : List ℚ) (ops : List CacheOp)
    (hops : ∀ op ∈ ops,
      makeKey hashFn pre op.text op.model ≠ makeKey hashFn pre text model)
    (httl : now' < now + ttl) :
    cacheGet hashFn pre
      (applyCacheSets hashFn pre ttl
        (cacheSet hashFn pre ttl store now text model v) ops)
      now' text model = some v := by
  unfold cacheGet
  rw [findEntry_applyCacheSets hashFn pre ttl _ ops _ hops]
  unfold cacheSet findEntry
  rw [if_pos rfl]
  exact (if_pos httl).trans (jsonLoadsVec_dumps v)

/-- C8 witness: a concrete round trip — identity hash, prefix `embed:`,
7-day TTL, a vector set at time 0 and read back at time 3 after an
intervening set of a different text. -/
theorem c8_cache_roundtrip_witness :
    cacheGet (fun l => l) ("embed:".toList)
      (applyCacheSets (fun l => l) ("embed:".toList) 604800
        (cacheSet (fun l => l) ("embed:".toList) 604800 [] 0
          ("some text".toList) ("bge-m3".toList) [1/2, 3])
        [⟨1, "other text".toList, "bge-m3".toList, [1]⟩])
      3 ("some text".toList) ("bge-m3".toList) = some [1/2, 3] :=
  c8_cache_roundtrip (fun l => l) ("embed:".toList) 604800 [] 0 3
    ("some text".toList) ("bge-m3".toList) [1/2, 3]
    [⟨1, "other text".toList, "bge-m3".toList, [1]⟩]
    (by
      intro op hop
      rw [List.mem_singleton] at hop
      subst hop
      decide)
    (by omega)

/-! ### Claim C9 (amended): idempotence of URL normalisation -/

lemma takeWhile_append_all {p : Char → Bool} :
    ∀ {A : List Char}, (∀ a ∈ A, p a = true) → ∀ B : List Char,
      (A ++ B).takeWhile p = A ++ B.takeWhile p := by
  intro A
  induction A with
  | nil => intro _ B; simp
  | cons a as ih =>
    intro h B
    rw [List.cons_append, List.takeWhile_cons, if_pos (h a (List.mem_cons_self a as)),
      ih (fun x hx => h x (List.mem_cons_of_mem a hx)) B, List.cons_append]

lemma dropWhile_append_all {p : Char → Bool} :
    ∀ {A : List Char}, (∀ a ∈ A, p a = true) → ∀ B : List Char,
      (A ++ B).dropWhile p = B.dropWhile p := by
  intro A
  induction A with
  | nil => intro _ B; simp
  | cons a as ih =>
    intro h B
    rw [List.cons_append, List.dropWhile_cons, if_pos (h a (List.mem_cons_self a as)),
      ih (fun x hx => h x (List.mem_cons_of_mem a hx)) B]

lemma takeWhile_eq_self_of_all {p : Char → Bool} {l : List Char}
    (h : ∀ a ∈ l, p a = true) : l.takeWhile p = l := by
  have := takeWhile_append_all h []
  simpa using this

lemma dropWhile_eq_nil_of_all {p : Char → Bool} {l : List Char}
    (h : ∀ a ∈ l, p a = true) : l.dropWhile p = [] := by
  have := dropWhile_append_all h []
  simpa using this

lemma head?_of_takeWhile_cons {p : Char → Bool} {l t : List Char} {c : Char}
    (h : l.takeWhile p = c :: t) : l.head? = some c ∧ p c = true := by
  cases l with
  | nil => simp [List.takeWhile] at h
  | cons a as =>
    rw [List.takeWhile_cons] at h
    by_cases hp : p a = true
    · rw [if_pos hp] at h
      obtain ⟨rfl, -⟩ := List.cons.inj h
      exact ⟨rfl, hp⟩
    · rw [if_neg hp] at h
      exact absurd h (List.cons_ne_nil c t).symm

lemma head?_dropWhile_false (p : Char → Bool) :
    ∀ {l : List Char} {c : Char}, (l.dropWhile p).head? = some c → p c = false := by
  intro l
  induction l with
  | nil => intro c h; simp [List.dropWhile] at h
  | cons a as ih =>
    intro c h
    rw [List.dropWhile_cons] at h
    by_cases hp : p a = true
    · rw [if_pos hp] at h
      exact ih h
    · rw [if_neg hp] at h
      simp only [List.head?_cons, Option.some.injEq] at h
      subst h
      exact Bool.not_eq_true _ ▸ (Bool.eq_false_iff.mpr hp)

lemma splitOnFirst_of_not_mem {sep : Char} {l : List Char}
    (h : ∀ c ∈ l, c ≠ sep) : splitOnFirst sep l = (l, []) := by
  unfold splitOnFirst
  have hb : ∀ c ∈ l, (c != sep) = true := fun c hc => by
    simpa using h c hc
  rw [takeWhile_eq_self_of_all hb, dropWhile_eq_nil_of_all hb]
  rfl

lemma splitOnFirst_append {sep : Char} {A : List Char} (B : List Char)
    (h : ∀ c ∈ A, c ≠ sep) : splitOnFirst sep (A ++ sep :: B) = (A, B) := by
  unfold splitOnFirst
  have hb : ∀ c ∈ A, (c != sep) = true := fun c hc => by
    simpa using h c hc
  rw [takeWhile_append_all hb, dropWhile_append_all hb,
    List.takeWhile_cons, List.dropWhile_cons]
  simp

/-! Component facts about `pyUrlparse` of an arbitrary URL. -/

lemma urlNetloc_no_delim (url : List Char) :
    ∀ c ∈ urlNetloc url, isNetlocDelim c = false := by
  intro c hc
  unfold urlNetloc splitNetloc at hc
  split at hc
  · have := List.mem_takeWhile_imp hc
    simpa using this
  · simp at hc

lemma mem_beforeFragment_ne_hash (url : List Char) :
    ∀ c ∈ beforeFragment url, c ≠ '#' := by
  intro c hc
  unfold beforeFragment splitOnFirst at hc
  have := List.mem_takeWhile_imp hc
  simpa using this

lemma urlsplitPath_no_query_hash (url : List Char) :
    ∀ c ∈ urlsplitPath url, c ≠ '?' ∧ c ≠ '#' := by
  intro c hc
  unfold urlsplitPath splitOnFirst at hc
  refine ⟨by simpa using List.mem_takeWhile_imp hc, ?_⟩
  exact mem_beforeFragment_ne_hash url c ((List.takeWhile_sublist _).subset hc)

lemma splitParams_fst_subset (l : List Char) : (splitParams l).1 ⊆ l := by
  unfold splitParams
  split
  · exact List.take_subset _ _
  · exact fun x h => h

lemma urlPath_subset_urlsplitPath (url : List Char) :
    urlPath url ⊆ urlsplitPath url := by
  unfold urlPath
  split
  · exact splitParams_fst_subset _
  · exact fun x h => h

lemma urlPath_no_query_hash (url : List Char) :
    ∀ c ∈ urlPath url, c ≠ '?' ∧ c ≠ '#' :=
  fun c hc => urlsplitPath_no_query_hash url c (urlPath_subset_urlsplitPath url hc)

lemma contains_eq_false_iff_forall (l : List Char) (c : Char) :
    l.contains c = false ↔ ∀ x ∈ l, x ≠ c := by
  induction l with
  | nil => simp
  | cons a t ih =>
    simp only [List.contains_cons, Bool.or_eq_false_iff, beq_eq_false_iff_ne,
      List.mem_cons, ne_eq]
    constructor
    · rintro ⟨h1, h2⟩ x hx
      rcases hx with rfl | hx
      · exact fun he => h1 he.symm
      · exact (ih.mp h2) x hx
    · intro h
      refine ⟨fun he => h a (Or.inl rfl) he.symm, ih.mpr (fun x hx => h x (Or.inr hx))⟩

lemma urlQuery_no_hash (url : List Char) :
    ∀ c ∈ urlQuery url, c ≠ '#' := by
  intro c hc
  unfold urlQuery splitOnFirst at hc
  have h1 : c ∈ beforeFragment url := by
    have h2 : c ∈ (beforeFragment url).dropWhile (fun c => c != '?') :=
      List.drop_subset 1 _ hc
    exact (List.dropWhile_sublist _).subset h2
  exact mem_beforeFragment_ne_hash url c h1

lemma afterNetloc_head_delim {url : List Char} (hN : urlNetloc url ≠ []) :
    ∀ c, (afterNetloc url).head? = some c → isNetlocDelim c = true := by
  intro c hc
  unfold urlNetloc splitNetloc at hN
  unfold afterNetloc splitNetloc at hc
  by_cases h2 : (afterScheme url).take 2 = ['/', '/']
  · rw [if_pos h2] at hc
    have := head?_dropWhile_false (fun c => !isNetlocDelim c) hc
    simpa using this
  · rw [if_neg h2] at hN
    exact absurd rfl hN

lemma urlsplitPath_head {url : List Char} (hN : urlNetloc url ≠ [])
    (hP : urlsplitPath url ≠ []) : (urlsplitPath url).head? = some '/' := by
  cases hpath : urlsplitPath url with
  | nil => exact absurd hpath hP
  | cons c t =>
    simp only [List.head?_cons, Option.some.injEq]
    unfold urlsplitPath splitOnFirst at hpath
    obtain ⟨hbf, hq⟩ := head?_of_takeWhile_cons hpath
    cases hbfrag : beforeFragment url with
    | nil => rw [hbfrag] at hbf; simp at hbf
    | cons c2 t2 =>
      rw [hbfrag] at hbf
      simp only [List.head?_cons, Option.some.injEq] at hbf
      unfold beforeFragment splitOnFirst at hbfrag
      obtain ⟨han, hh⟩ := head?_of_takeWhile_cons hbfrag
      rw [hbf] at han hh
      have hdelim := afterNetloc_head_delim hN c han
      have hc1 : c ≠ '?' := by simpa using hq
      have hc2 : c ≠ '#' := by simpa using hh
      unfold isNetlocDelim at hdelim
      rcases Bool.or_eq_true_iff.mp hdelim with h | h
      · rcases Bool.or_eq_true_iff.mp h with h' | h'
        · exact (by simpa using h' : c = '/')
        · exact absurd (by simpa using h' : c = '?') hc1
      · exact absurd (by simpa using h : c = '#') hc2

lemma dropWhile_eq_self_of_head_false {p : Char → Bool} {l : List Char}
    (h : ∀ c, l.head? = some c → p c = false) : l.dropWhile p = l := by
  cases l with
  | nil => rfl
  | cons a as =>
    rw [List.dropWhile_cons, if_neg]
    rw [h a rfl]
    simp

lemma urlCleaned_eq_self {l : List Char} (h : ∀ c ∈ l, 32 < c.toNat) :
    urlCleaned l = l := by
  unfold urlCleaned stripC0 removeUnsafe
  have hC0 : ∀ c ∈ l, isC0OrSpace c = false := by
    intro c hc
    unfold isC0OrSpace
    exact decide_eq_false (by have := h c hc; omega)
  have h1 : l.dropWhile isC0OrSpace = l :=
    dropWhile_eq_self_of_head_false (fun c hc =>
      hC0 c (by cases l with
        | nil => simp at hc
        | cons a as =>
          simp only [List.head?_cons, Option.some.injEq] at hc
          subst hc
          exact List.mem_cons_self _ _))
  rw [h1]
  have h2 : l.reverse.dropWhile isC0OrSpace = l.reverse :=
    dropWhile_eq_self_of_head_false (fun c hc =>
      hC0 c (List.mem_reverse.mp (by
        cases hrev : l.reverse with
        | nil => rw [hrev] at hc; simp at hc
        | cons a as =>
          rw [hrev] at hc
          simp only [List.head?_cons, Option.some.injEq] at hc
          subst hc
          exact List.mem_cons_self _ _)))
  rw [h2, List.reverse_reverse]
  apply List.filter_eq_self.mpr
  intro c hc
  have h3 := h c hc
  have t1 : c ≠ '\t' := by intro hch; rw [hch] at h3; exact absurd h3 (by decide)
  have t2 : c ≠ '\r' := by intro hch; rw [hch] at h3; exact absurd h3 (by decide)
  have t3 : c ≠ '\n' := by intro hch; rw [hch] at h3; exact absurd h3 (by decide)
  simp [t1, t2, t3]

lemma splitScheme_reconstruct {s : List Char}
    (hs : s = "http".toList ∨ s = "https".toList) (rest : List Char) :
    splitScheme (s ++ ':' :: rest) = (s, rest) := by
  have hsne : ∀ c ∈ s, (c != ':') = true := by
    rcases hs with rfl | rfl <;> decide
  have hpre : schemePre (s ++ ':' :: rest) = s := by
    unfold schemePre
    rw [takeWhile_append_all hsne, List.takeWhile_cons]
    simp
  unfold splitScheme
  rw [hpre]
  have hcond : (decide (s.length < (s ++ ':' :: rest).length) &&
      firstIsAlpha s && s.all isSchemeChar) = true := by
    rw [Bool.and_eq_true, Bool.and_eq_true]
    refine ⟨⟨?_, ?_⟩, ?_⟩
    · rw [decide_eq_true_iff]
      simp [List.length_append]
    · rcases hs with rfl | rfl <;> decide
    · rcases hs with rfl | rfl <;> decide
  rw [if_pos hcond]
  have hmap : s.map Char.toLower = s := by
    rcases hs with rfl | rfl <;> decide
  have hdrop : (s ++ ':' :: rest).drop (s.length + 1) = rest := by
    have hsplit : s ++ ':' :: rest = (s ++ [':']) ++ rest := by
      rw [List.append_assoc]
      rfl
    rw [hsplit, show s.length + 1 = (s ++ [':']).length by simp, List.drop_left]
  rw [hmap, hdrop]

lemma splitNetloc_reconstruct {N : List Char}
    (hNd : ∀ c ∈ N, isNetlocDelim c = false) (tail : List Char)
    (htail : ∀ c, tail.head? = some c → isNetlocDelim c = true) :
    splitNetloc ('/' :: '/' :: (N ++ tail)) = (N, tail) := by
  have hNb : ∀ c ∈ N, (!isNetlocDelim c) = true := by
    intro c hc
    rw [hNd c hc]
    rfl
  have htake : tail.takeWhile (fun c => !isNetlocDelim c) = [] := by
    cases tail with
    | nil => rfl
    | cons c t =>
      rw [List.takeWhile_cons, if_neg]
      rw [htail c rfl]
      simp
  have hdrop : tail.dropWhile (fun c => !isNetlocDelim c) = tail :=
    dropWhile_eq_self_of_head_false (fun c hc => by
      rw [htail c hc]
      rfl)
  unfold splitNetloc
  rw [if_pos (show List.take 2 ('/' :: '/' :: (N ++ tail)) = ['/', '/'] from rfl)]
  show (((N ++ tail).takeWhile fun c => !isNetlocDelim c),
        ((N ++ tail).dropWhile fun c => !isNetlocDelim c)) = (N, tail)
  rw [takeWhile_append_all hNb, dropWhile_append_all hNb, htake, hdrop,
    List.append_nil]

/-- Parse of a reassembled URL `scheme://netloc path [?query]` with
well-formed components (in particular a semicolon-free path, so no
params are split off): each component is recovered exactly, the params
and the fragment are empty. -/
lemma pyUrlparse_reconstruct (s N P Q : List Char)
    (hs : s = "http".toList ∨ s = "https".toList)
    (hNd : ∀ c ∈ N, isNetlocDelim c = false)
    (hPhead : P ≠ [] → P.head? = some '/')
    (hPq : ∀ c ∈ P, c ≠ '?' ∧ c ≠ '#')
    (hPsemi : ∀ c ∈ P, c ≠ ';')
    (hQh : ∀ c ∈ Q, c ≠ '#')
    (hbig : ∀ c ∈ N ++ P ++ Q, 32 < c.toNat) :
    pyUrlparse (s ++ ':' :: '/' :: '/' ::
        (N ++ P ++ (if Q = [] then [] else '?' :: Q))) =
      ⟨s, N, P, [], Q, []⟩ := by
  have hsc : ∀ c ∈ s, 32 < c.toNat := by
    rcases hs with rfl | rfl <;> decide
  have hu : ∀ c ∈ s ++ ':' :: '/' :: '/' ::
      (N ++ P ++ (if Q = [] then [] else '?' :: Q)), 32 < c.toNat := by
    intro c hc
    rcases List.mem_append.mp hc with h | h
    · exact hsc c h
    · rcases List.mem_cons.mp h with rfl | h
      · decide
      · rcases List.mem_cons.mp h with rfl | h
        · decide
        · rcases List.mem_cons.mp h with rfl | h
          · decide
          · rcases List.mem_append.mp h with h2 | h2
            · exact hbig c (List.mem_append.mpr (Or.inl h2))
            · by_cases hQ0 : Q = []
              · rw [if_pos hQ0] at h2
                simp at h2
              · rw [if_neg hQ0] at h2
                rcases List.mem_cons.mp h2 with rfl | h3
                · decide
                · exact hbig c (List.mem_append.mpr (Or.inr h3))
  have hclean : urlCleaned (s ++ ':' :: '/' :: '/' ::
      (N ++ P ++ (if Q = [] then [] else '?' :: Q))) =
      s ++ ':' :: '/' :: '/' :: (N ++ P ++ (if Q = [] then [] else '?' :: Q)) :=
    urlCleaned_eq_self hu
  have htailhead : ∀ c, (P ++ (if Q = [] then [] else '?' :: Q)).head? = some c →
      isNetlocDelim c = true := by
    intro c hc
    cases hP0 : P with
    | cons p0 pt =>
      rw [hP0] at hc
      rw [List.cons_append, List.head?_cons, Option.some.injEq] at hc
      have hh := hPhead (by rw [hP0]; exact List.cons_ne_nil _ _)
      rw [hP0] at hh
      simp only [List.head?_cons, Option.some.injEq] at hh
      rw [← hc, hh]
      decide
    | nil =>
      rw [hP0, List.nil_append] at hc
      by_cases hQ0 : Q = []
      · rw [if_pos hQ0] at hc
        simp at hc
      · rw [if_neg hQ0] at hc
        simp only [List.head?_cons, Option.some.injEq] at hc
        rw [← hc]
        decide
  have hsplit2 := splitNetloc_reconstruct hNd
    (P ++ (if Q = [] then [] else '?' :: Q)) htailhead
  have hsplit3 : splitOnFirst '#' (P ++ (if Q = [] then [] else '?' :: Q)) =
      (P ++ (if Q = [] then [] else '?' :: Q), []) := by
    apply splitOnFirst_of_not_mem
    intro c hc
    rcases List.mem_append.mp hc with h | h
    · exact (hPq c h).2
    · by_cases hQ0 : Q = []
      · rw [if_pos hQ0] at h
        simp at h
      · rw [if_neg hQ0] at h
        rcases List.mem_cons.mp h with rfl | h3
        · decide
        · exact hQh c h3
  have hsplit4 : splitOnFirst '?' (P ++ (if Q = [] then [] else '?' :: Q)) =
      (P, Q) := by
    by_cases hQ0 : Q = []
    · rw [if_pos hQ0, List.append_nil, hQ0]
      exact splitOnFirst_of_not_mem (fun c hc => (hPq c hc).1)
    · rw [if_neg hQ0]
      exact splitOnFirst_append Q (fun c hc => (hPq c hc).1)
  have hPcont : P.contains ';' = false :=
    (contains_eq_false_iff_forall P ';').mpr hPsemi
  simp only [pyUrlparse, urlScheme, urlNetloc, urlPath, urlParams, urlsplitPath,
    urlQuery, urlFragment, afterScheme, afterNetloc, beforeFragment]
  rw [hclean, splitScheme_reconstruct hs, List.append_assoc]
  dsimp only
  rw [hsplit2]
  dsimp only
  rw [hsplit3]
  dsimp only
  rw [hsplit4]
  dsimp only
  rw [hPcont, Bool.and_false, if_neg Bool.false_ne_true, if_neg Bool.false_ne_true]

lemma splitScheme_snd_subset (l : List Char) : (splitScheme l).2 ⊆ l := by
  unfold splitScheme
  split
  · exact List.drop_subset _ _
  · exact fun x h => h

lemma splitNetloc_fst_subset (l : List Char) : (splitNetloc l).1 ⊆ l := by
  unfold splitNetloc
  split
  · intro _ h
    exact List.drop_subset 2 l ((List.takeWhile_sublist _).subset h)
  · intro _ h
    simp at h

lemma splitNetloc_snd_subset (l : List Char) : (splitNetloc l).2 ⊆ l := by
  unfold splitNetloc
  split
  · intro _ h
    exact List.drop_subset 2 l ((List.dropWhile_sublist _).subset h)
  · exact fun x h => h

lemma splitOnFirst_fst_subset (sep : Char) (l : List Char) :
    (splitOnFirst sep l).1 ⊆ l := by
  unfold splitOnFirst
  exact (List.takeWhile_sublist _).subset

lemma splitOnFirst_snd_subset (sep : Char) (l : List Char) :
    (splitOnFirst sep l).2 ⊆ l := by
  unfold splitOnFirst
  intro _ h
  exact (List.dropWhile_sublist _).subset (List.drop_subset 1 _ h)

lemma urlNetloc_subset (url : List Char) : urlNetloc url ⊆ urlCleaned url :=
  fun _ h => splitScheme_snd_subset _ (splitNetloc_fst_subset _ h)

lemma urlsplitPath_subset (url : List Char) :
    urlsplitPath url ⊆ urlCleaned url :=
  fun _ h => splitScheme_snd_subset _ (splitNetloc_snd_subset _
    (splitOnFirst_fst_subset '#' _ (splitOnFirst_fst_subset '?' _ h)))

lemma urlPath_subset (url : List Char) : urlPath url ⊆ urlCleaned url :=
  fun _ h => urlsplitPath_subset url (urlPath_subset_urlsplitPath url h)

lemma urlQuery_subset (url : List Char) : urlQuery url ⊆ urlCleaned url :=
  fun _ h => splitScheme_snd_subset _ (splitNetloc_snd_subset _
    (splitOnFirst_fst_subset '#' _ (splitOnFirst_snd_subset '?' _ h)))

lemma getLast?_reassembled (s N P : List Char) (hN : N ≠ []) :
    (s ++ ':' :: '/' :: '/' :: (N ++ P)).getLast? =
      (if P = [] then N.getLast? else P.getLast?) := by
  rw [List.getLast?_append_of_ne_nil s (List.cons_ne_nil _ _)]
  show ([':', '/', '/'] ++ (N ++ P)).getLast? = _
  rw [List.getLast?_append_of_ne_nil _ (List.append_ne_nil_of_left_ne_nil hN P)]
  by_cases hP : P = []
  · rw [if_pos hP, hP, List.append_nil]
  · rw [if_neg hP, List.getLast?_append_of_ne_nil N hP]

lemma dropLast_reassembled (s N P : List Char) (hP : P ≠ []) :
    (s ++ ':' :: '/' :: '/' :: (N ++ P)).dropLast =
      s ++ ':' :: '/' :: '/' :: (N ++ P.dropLast) := by
  have h1 : s ++ ':' :: '/' :: '/' :: (N ++ P) = ((s ++ [':', '/', '/']) ++ N) ++ P := by
    simp [List.append_assoc]
  rw [h1, List.dropLast_append_of_ne_nil _ hP]
  simp [List.append_assoc]

lemma head?_dropLast_of_two {l : List Char} (h : 1 < l.length) :
    l.dropLast.head? = l.head? := by
  cases l with
  | nil => simp at h
  | cons a t =>
    cases t with
    | nil => simp at h
    | cons b t2 => rfl

lemma normalizeUrl_shape (u : List Char) (hne : u ≠ [])
    (hstripc : ¬ ((normalizeRaw u).getLast? = some '/' ∧ urlPath u ≠ ['/'])) :
    normalizeUrl u = urlScheme u ++ ':' :: '/' :: '/' ::
      (urlNetloc u ++ urlPath u ++
        (if urlQuery u = [] then [] else '?' :: urlQuery u)) := by
  unfold normalizeUrl normalizeBase
  rw [if_neg hne, if_neg hstripc]
  by_cases hQ0 : urlQuery u = []
  · rw [if_neg (by simpa using hQ0 : ¬ urlQuery u ≠ []), if_pos hQ0]
    show normalizeRaw u = _
    unfold normalizeRaw
    simp
  · rw [if_pos (by simpa using hQ0 : urlQuery u ≠ []), if_neg hQ0]
    show normalizeRaw u ++ '?' :: urlQuery u = _
    unfold normalizeRaw
    simp [List.append_assoc]

/-- C9 (amended): URL normalisation is idempotent for every URL string
with no whitespace or control characters (code points ≤ 32) that parses to
an http(s) scheme with a nonempty host, a path not ending in a double
slash, and a path free of semicolons. Both path exclusions are necessary:
the normaliser strips only one trailing slash per pass, so `http://h/p//`
maps to `http://h/p/` and only a second pass reaches `http://h/p`; and
for an http(s) scheme `urlparse` splits a params component at the first
`;` at or after the last `/` of the path, so `http://h/a;b/` maps to
`http://h/a;b` (no `;` after the trailing slash, nothing split) and only
a second pass splits `;b` off and reaches `http://h/a`. -/
theorem c9_normalize_idempotent_amended (url : List Char)
    (hchars : ∀ c ∈ url, 32 < c.toNat)
    (hscheme : urlScheme url = "http".toList ∨ urlScheme url = "https".toList)
    (hnetloc : urlNetloc url ≠ [])
    (hnoslashes : (['/', '/'].isSuffixOf (urlPath url)) = false)
    (hsemi : (urlsplitPath url).contains ';' = false) :
    normalizeUrl (normalizeUrl url) = normalizeUrl url := by
  have hcu : urlCleaned url = url := urlCleaned_eq_self hchars
  have hurlne : url ≠ [] := by
    intro h
    rw [h] at hnetloc
    exact hnetloc rfl
  have hPP : urlPath url = urlsplitPath url := by
    unfold urlPath
    rw [hsemi, Bool.and_false, if_neg Bool.false_ne_true]
  have hNd : ∀ c ∈ urlNetloc url, isNetlocDelim c = false := urlNetloc_no_delim url
  have hNchars : ∀ c ∈ urlNetloc url, 32 < c.toNat := fun c hc =>
    hchars c (hcu ▸ urlNetloc_subset url hc)
  have hPchars : ∀ c ∈ urlPath url, 32 < c.toNat := fun c hc =>
    hchars c (hcu ▸ urlPath_subset url hc)
  have hQchars : ∀ c ∈ urlQuery url, 32 < c.toNat := fun c hc =>
    hchars c (hcu ▸ urlQuery_subset url hc)
  have hPq : ∀ c ∈ urlPath url, c ≠ '?' ∧ c ≠ '#' := urlPath_no_query_hash url
  have hPsemi : ∀ c ∈ urlPath url, c ≠ ';' := by
    rw [hPP]
    exact (contains_eq_false_iff_forall _ ';').mp hsemi
  have hQh : ∀ c ∈ urlQuery url, c ≠ '#' := urlQuery_no_hash url
  have hPhead : urlPath url ≠ [] → (urlPath url).head? = some '/' := by
    rw [hPP]
    exact fun h => urlsplitPath_head hnetloc h
  have hNlast : urlNetloc url ≠ [] → (urlNetloc url).getLast? ≠ some '/' := by
    intro _ hl
    have hmem : '/' ∈ urlNetloc url := List.mem_of_mem_getLast? (by simp [hl])
    have := hNd '/' hmem
    simp [isNetlocDelim] at this
  -- The stripped path P' and the shape of `normalizeUrl url`.
  by_cases hstrip : (normalizeRaw url).getLast? = some '/' ∧ urlPath url ≠ ['/']
  case pos =>
    -- One trailing slash is stripped from the path.
    have hraw : normalizeRaw url =
        urlScheme url ++ ':' :: '/' :: '/' :: (urlNetloc url ++ urlPath url) := rfl
    have hPne : urlPath url ≠ [] := by
      intro hP0
      have := hstrip.1
      rw [hraw, getLast?_reassembled _ _ _ hnetloc, if_pos hP0] at this
      exact hNlast hnetloc this
    have hPlast : (urlPath url).getLast? = some '/' := by
      have := hstrip.1
      rw [hraw, getLast?_reassembled _ _ _ hnetloc, if_neg hPne] at this
      exact this
    have hbase : normalizeBase url = urlScheme url ++ ':' :: '/' :: '/' ::
        (urlNetloc url ++ (urlPath url).dropLast) := by
      unfold normalizeBase
      rw [if_pos hstrip, hraw, dropLast_reassembled _ _ _ hPne]
    -- Properties of the stripped path.
    have hP'sub : (urlPath url).dropLast ⊆ urlPath url :=
      (List.dropLast_sublist _).subset
    have hP'head : (urlPath url).dropLast ≠ [] →
        ((urlPath url).dropLast).head? = some '/' := by
      intro h
      have hlen : 1 < (urlPath url).length := by
        have h1 : (urlPath url).dropLast.length = (urlPath url).length - 1 :=
          List.length_dropLast _
        have h2 : (urlPath url).dropLast.length ≠ 0 := by
          intro h0
          exact h (List.length_eq_zero.mp h0)
        omega
      rw [head?_dropLast_of_two hlen]
      exact hPhead hPne
    have hP'last : ((urlPath url).dropLast).getLast? = some '/' →
        (urlPath url).dropLast = ['/'] := by
      intro hl
      exfalso
      have hP'ne : (urlPath url).dropLast ≠ [] := by
        intro h0
        rw [h0] at hl
        simp at hl
      have e1 : (urlPath url).dropLast.dropLast ++ ['/'] = (urlPath url).dropLast := by
        have happ := List.dropLast_append_getLast hP'ne
        rw [List.getLast?_eq_getLast _ hP'ne] at hl
        rw [Option.some.inj hl] at happ
        exact happ
      have e2 : (urlPath url).dropLast ++ ['/'] = urlPath url := by
        have happ := List.dropLast_append_getLast hPne
        rw [List.getLast?_eq_getLast _ hPne] at hPlast
        rw [Option.some.inj hPlast] at happ
        exact happ
      have hsuf : ['/', '/'] <:+ urlPath url := by
        refine ⟨(urlPath url).dropLast.dropLast, ?_⟩
        rw [show ((urlPath url).dropLast.dropLast) ++ ['/', '/'] =
          ((urlPath url).dropLast.dropLast ++ ['/']) ++ ['/'] by simp, e1, e2]
      rw [← List.isSuffixOf_iff_suffix] at hsuf
      rw [hnoslashes] at hsuf
      exact Bool.false_ne_true hsuf
    -- The reassembled form of `normalizeUrl url` and its parse.
    have hnu : normalizeUrl url = urlScheme url ++ ':' :: '/' :: '/' ::
        (urlNetloc url ++ (urlPath url).dropLast ++
          (if urlQuery url = [] then [] else '?' :: urlQuery url)) := by
      unfold normalizeUrl
      rw [if_neg hurlne]
      by_cases hQ0 : urlQuery url = []
      · rw [if_neg (by simpa using hQ0 : ¬ urlQuery url ≠ []), hbase, if_pos hQ0]
        simp
      · rw [if_pos hQ0, hbase, if_neg hQ0]
        simp [List.append_assoc]
    have hparse : pyUrlparse (normalizeUrl url) =
        ⟨urlScheme url, urlNetloc url, (urlPath url).dropLast, [],
         urlQuery url, []⟩ := by
      rw [hnu]
      exact pyUrlparse_reconstruct _ _ _ _ hscheme hNd hP'head
        (fun c hc => hPq c (hP'sub hc)) (fun c hc => hPsemi c (hP'sub hc)) hQh
        (by
          intro c hc
          rcases List.mem_append.mp hc with h | h
          · rcases List.mem_append.mp h with h2 | h2
            · exact hNchars c h2
            · exact hPchars c (hP'sub h2)
          · exact hQchars c h)
    have hs2 : urlScheme (normalizeUrl url) = urlScheme url := by
      simpa [pyUrlparse] using congrArg ParsedUrl.scheme hparse
    have hn2 : urlNetloc (normalizeUrl url) = urlNetloc url := by
      simpa [pyUrlparse] using congrArg ParsedUrl.netloc hparse
    have hp2 : urlPath (normalizeUrl url) = (urlPath url).dropLast := by
      simpa [pyUrlparse] using congrArg ParsedUrl.path hparse
    have hq2 : urlQuery (normalizeUrl url) = urlQuery url := by
      simpa [pyUrlparse] using congrArg ParsedUrl.query hparse
    -- Second normalisation is the identity on this shape.
    have hraw2 : normalizeRaw (normalizeUrl url) = urlScheme url ++ ':' :: '/' :: '/' ::
        (urlNetloc url ++ (urlPath url).dropLast) := by
      unfold normalizeRaw
      rw [hs2, hn2, hp2]
    have hstrip2 : ¬ ((normalizeRaw (normalizeUrl url)).getLast? = some '/' ∧
        urlPath (normalizeUrl url) ≠ ['/']) := by
      rintro ⟨hl, hne1⟩
      rw [hraw2, getLast?_reassembled _ _ _ hnetloc] at hl
      by_cases hP'0 : (urlPath url).dropLast = []
      · rw [if_pos hP'0] at hl
        exact hNlast hnetloc hl
      · rw [if_neg hP'0] at hl
        have := hP'last hl
        rw [hp2] at hne1
        exact hne1 this
    have hnune : normalizeUrl url ≠ [] := by
      rw [hnu]
      rcases hscheme with h | h <;> rw [h] <;> exact List.cons_ne_nil _ _
    rw [normalizeUrl_shape (normalizeUrl url) hnune hstrip2, hs2, hn2, hp2, hq2, hnu]
  case neg =>
    -- No slash stripped: `normalizeUrl url` keeps the path unchanged.
    have hraw : normalizeRaw url =
        urlScheme url ++ ':' :: '/' :: '/' :: (urlNetloc url ++ urlPath url) := rfl
    have hPlastcase : (urlPath url).getLast? = some '/' → urlPath url = ['/'] := by
      intro hl
      by_contra hne1
      apply hstrip
      refine ⟨?_, hne1⟩
      have hPne : urlPath url ≠ [] := by
        intro h0
        rw [h0] at hl
        simp at hl
      rw [hraw, getLast?_reassembled _ _ _ hnetloc, if_neg hPne]
      exact hl
    have hnu : normalizeUrl url = urlScheme url ++ ':' :: '/' :: '/' ::
        (urlNetloc url ++ urlPath url ++
          (if urlQuery url = [] then [] else '?' :: urlQuery url)) :=
      normalizeUrl_shape url hurlne hstrip
    have hparse : pyUrlparse (normalizeUrl url) =
        ⟨urlScheme url, urlNetloc url, urlPath url, [], urlQuery url, []⟩ := by
      rw [hnu]
      exact pyUrlparse_reconstruct _ _ _ _ hscheme hNd hPhead hPq hPsemi hQh
        (by
          intro c hc
          rcases List.mem_append.mp hc with h | h
          · rcases List.mem_append.mp h with h2 | h2
            · exact hNchars c h2
            · exact hPchars c h2
          · exact hQchars c h)
    have hs2 : urlScheme (normalizeUrl url) = urlScheme url := by
      simpa [pyUrlparse] using congrArg ParsedUrl.scheme hparse
    have hn2 : urlNetloc (normalizeUrl url) = urlNetloc url := by
      simpa [pyUrlparse] using congrArg ParsedUrl.netloc hparse
    have hp2 : urlPath (normalizeUrl url) = urlPath url := by
      simpa [pyUrlparse] using congrArg ParsedUrl.path hparse
    have hq2 : urlQuery (normalizeUrl url) = urlQuery url := by
      simpa [pyUrlparse] using congrArg ParsedUrl.query hparse
    have hraw2 : normalizeRaw (normalizeUrl url) = urlScheme url ++ ':' :: '/' :: '/' ::
        (urlNetloc url ++ urlPath url) := by
      unfold normalizeRaw
      rw [hs2, hn2, hp2]
    have hstrip2 : ¬ ((normalizeRaw (normalizeUrl url)).getLast? = some '/' ∧
        urlPath (normalizeUrl url) ≠ ['/']) := by
      rintro ⟨hl, hne1⟩
      rw [hraw2, getLast?_reassembled _ _ _ hnetloc] at hl
      by_cases hP0 : urlPath url = []
      · rw [if_pos hP0] at hl
        exact hNlast hnetloc hl
      · rw [if_neg hP0] at hl
        have := hPlastcase hl
        rw [hp2] at hne1
        exact hne1 this
    have hnune : normalizeUrl url ≠ [] := by
      rw [hnu]
      rcases hscheme with h | h <;> rw [h] <;> exact List.cons_ne_nil _ _
    rw [normalizeUrl_shape (normalizeUrl url) hnune hstrip2, hs2, hn2, hp2, hq2, hnu]

/-- C9 witness: the amended idempotence at `https://example.com/docs/`
(clean characters, https scheme, nonempty host, no trailing double
slash, no semicolon in the path). -/
theorem c9_normalize_idempotent_amended_witness :
    normalizeUrl (normalizeUrl ("https://example.com/docs/".toList)) =
      normalizeUrl ("https://example.com/docs/".toList) :=
  c9_normalize_idempotent_amended ("https://example.com/docs/".toList)
    (by decide) (Or.inr (by decide)) (by decide) (by decide) (by decide)

end DocVector
